import Mathlib

/-!
Verification development for the cppb incremental build tool.

Each namespace below is a shallow embedding of one part of the C++ source:

* `Cppb.Diag`      — diagnostic aggregation of `build_project_async` (src/main.cpp)
* `Cppb.Proc`      — error/warning counting of `run_process` (src/process.cpp)
* `Cppb.Gate`      — the recompilation gate of `build_project_async` (src/main.cpp)
  together with a second definition written from the specification's words,
  for comparison
* `Cppb.DepJson`   — `read_dependency_json` (src/analyze.cpp) and the way
  `build_project` (src/main.cpp) consumes its error output
* `Cppb.Resolve`   — include resolution of `get_dependencies` (src/analyze.cpp)
* `Cppb.Scan`      — the lexical include scanner `get_includes` (src/analyze.cpp)
* `Cppb.Rules`     — the rule engine `run_rule` (src/main.cpp)
* `Cppb.Graph`     — `add_source_file` / `analyze_source_files` (src/analyze.cpp)
* `Cppb.Times`     — `get_and_fill_last_modified_time` / `fill_last_modified_times`
  (src/analyze.cpp)
* `Cppb.Sched`     — the ordered progress reporting of `run_commands` (src/main.cpp)

Filesystem timestamps (`fs::file_time_type`) are modelled as `Nat`, with `0`
playing the role of `fs::file_time_type::min()`; paths are modelled as `Nat`
or `String` identifiers as convenient for the component.  External collaborators
(the filesystem, spawned processes) are passed in as explicit function
parameters.  Unbounded recursion in the C++ source is modelled with an explicit
fuel parameter returning `Option`, so that termination of a loop is a provable
statement (`= some _`) rather than a definitional artifact.
-/

namespace Cppb

namespace Diag

/-- The per-invocation result record used by the compilation phase, as read by
the diagnostic loop of `build_project_async` (src/main.cpp): exit code of the
compiler process and the textual error/warning counts parsed from its captured
output. -/
structure CompileResult where
  exit_code : Int
  error_count : Nat
  warning_count : Nat
deriving DecidableEq, Repr

/-- How a finished invocation is reported by the loop in `build_project_async`
(src/main.cpp, the loop over `compilation_results`): silently skipped, via
`report_error`, or via `report_warning`. -/
inductive ReportKind where
  | silent
  | errorReport
  | warningReport
deriving DecidableEq, Repr

/-- The branch structure of the reporting loop body in `build_project_async`:
a result is looked at only if some count or the exit code is nonzero; it is
reported as an error when the exit code or error count is nonzero, and as a
warning otherwise. -/
def classify (r : CompileResult) : ReportKind :=
  if r.exit_code ≠ 0 ∨ r.error_count ≠ 0 ∨ r.warning_count ≠ 0 then
    if r.exit_code ≠ 0 ∨ r.error_count ≠ 0 then ReportKind.errorReport
    else ReportKind.warningReport
  else ReportKind.silent

/-- The `is_good` accumulation of `build_project_async`: starting from `true`,
each result with any nonzero field folds in `exit_code == 0 && error_count == 0`. -/
def isGoodFold (results : List CompileResult) : Bool :=
  results.foldl
    (fun g r =>
      if r.exit_code ≠ 0 ∨ r.error_count ≠ 0 ∨ r.warning_count ≠ 0 then
        g && decide (r.exit_code = 0) && decide (r.error_count = 0)
      else g)
    true

/-- The exit code `build_project_async` produces from the compilation results:
`1` when `is_good` ended up false, `0` otherwise. -/
def buildPhaseExit (results : List CompileResult) : Int :=
  if isGoodFold results then 0 else 1

end Diag

namespace Gate

/-- Everything the object-file staleness check in `build_project_async`
(src/main.cpp) reads, together with the fields the specification's
`should_recompile` additionally consults (the persisted artifact record).
Times are `Nat` with `0` for `fs::file_time_type::min()`. -/
structure GateInput where
  /-- the `build --rebuild` command line flag -/
  rebuild : Bool
  /-- whether the object file exists on disk -/
  object_exists : Bool
  /-- the object file's disk mtime (meaningful when it exists) -/
  object_time : Nat
  /-- `source.last_modified_time`, the input's effective timestamp -/
  source_effective_time : Nat
  /-- `dependency_last_update` (config / pre-build rule times) -/
  dependency_last_update : Nat
  /-- the relevant precompiled header's build time (`c_pch_last_update` or
  `cpp_pch_last_update`) -/
  pch_last_update : Nat
  /-- whether a persisted `output_file_info` record exists and parses -/
  record_valid : Bool
  /-- the record file's disk mtime -/
  record_time : Nat
  /-- the content hash stored in the record -/
  record_hash : Nat
  /-- the object file's current content hash -/
  object_hash : Nat
  /-- the compiler identity stored in the record -/
  record_compiler : String
  /-- the argument list stored in the record -/
  record_args : List String
  /-- the compiler identity about to be used -/
  current_compiler : String
  /-- the argument list about to be used -/
  current_args : List String
deriving DecidableEq, Repr

/-- `fs::exists(object_file) ? fs::last_write_time(object_file)
: fs::file_time_type::min()` from `build_project_async`. -/
def objectLastWriteTime (i : GateInput) : Nat :=
  if i.object_exists then i.object_time else 0

/-- The recompilation condition exactly as `build_project_async` (src/main.cpp)
computes it for an object file: the rebuild flag, or the object's (possibly
`min`) mtime being older than the source's effective time, the dependency
cache update time, or the relevant precompiled header's update time.  No
artifact record is consulted anywhere in this check. -/
def shouldRecompileCode (i : GateInput) : Bool :=
  i.rebuild
    || decide (objectLastWriteTime i < i.source_effective_time)
    || decide (objectLastWriteTime i < i.dependency_last_update)
    || decide (objectLastWriteTime i < i.pch_last_update)

/-- The `should_recompile` predicate as the specification words it
(spec.md §4.3): true if any of — a full-rebuild flag; the output does not
exist; the output older than the PCH build time; the output older than the
input's effective time; no valid record or the record older than the output;
a content-hash mismatch; or a differing compiler identity / argument list.
This definition follows the specification text and exists to be compared with
`shouldRecompileCode`, which is translated from the source. -/
def shouldRecompileSpec (i : GateInput) : Bool :=
  i.rebuild
    || !i.object_exists
    || decide (i.object_time < i.pch_last_update)
    || decide (i.object_time < i.source_effective_time)
    || !i.record_valid
    || decide (i.record_time < i.object_time)
    || decide (i.object_hash ≠ i.record_hash)
    || decide (i.record_compiler ≠ i.current_compiler)
    || decide (i.record_args ≠ i.current_args)

/-- A concrete input where the object file is up to date by every timestamp,
but the persisted record's hash disagrees with the artifact's current hash
(and the recorded argument list also differs). -/
def hashMismatchInput : GateInput where
  rebuild := false
  object_exists := true
  object_time := 10
  source_effective_time := 5
  dependency_last_update := 5
  pch_last_update := 5
  record_valid := true
  record_time := 11
  record_hash := 77
  object_hash := 78
  record_compiler := "gcc"
  record_args := ["-c"]
  current_compiler := "gcc"
  current_args := ["-O2", "-c"]

end Gate

namespace Proc

/-- `s.find(pat, start)` of `std::string`, by its library specification: the
smallest position `i ≥ start` at which `pat` occurs as a substring of `s`
(`npos` becomes `none`).  `std::string::find` is a standard-library
collaborator, so it is modelled by its contract rather than translated. -/
def strFind (pat s : List Char) (start : Nat) : Option Nat :=
  (List.range (s.length + 1)).find? (fun i => start ≤ i && pat.isPrefixOf (s.drop i))

/-- The counting loop of `run_process` (src/process.cpp):
`for (it = find(pat); it != npos; it = find(pat, it + 1)) count += 1;`.
The loop variable strictly increases, so `s.length + 1` rounds of fuel always
suffice; running out of fuel yields `none`. -/
def countLoop (pat s : List Char) : Nat → Nat → Option Nat
  | 0, _ => none
  | fuel + 1, start =>
    match strFind pat s start with
    | none => some 0
    | some i => (countLoop pat s fuel (i + 1)).map (· + 1)

/-- The substring count computed by the loops at the end of `run_process`,
with the always-sufficient fuel. -/
def countSubstr (pat s : List Char) : Option Nat :=
  countLoop pat s (s.length + 1) 0

/-- The number of positions of `s` at which `pat` occurs as a substring —
the specification-level meaning of "number of occurrences of the literal
substring", overlapping occurrences included. -/
def occurrenceCount (pat s : List Char) : Nat :=
  ((List.range (s.length + 1)).filter (fun i => pat.isPrefixOf (s.drop i))).length

/-- The result record of `run_process` (src/process.h / src/process.cpp). -/
structure ProcessResult where
  error_count : Nat
  warning_count : Nat
  exit_code : Int
  stdout_string : List Char
  stderr_string : List Char
deriving DecidableEq, Repr

/-- The tail of `run_process(command_line, capture)` (src/process.cpp): given
the spawned process's exit code and the two captured streams, the diagnostic
counts are derived — only under `capture` — by scanning `stderr_string` for
the literal substrings `"error:"` and `"warning:"`.  The process spawn itself
is the external collaborator; this models what `run_process` does with its
results.  `none` would indicate non-termination of a counting loop. -/
def runProcessModel (capture : Bool) (exitCode : Int) (outText errText : List Char) :
    Option ProcessResult :=
  if capture then
    match countSubstr "error:".toList errText, countSubstr "warning:".toList errText with
    | some e, some w =>
      some { error_count := e, warning_count := w, exit_code := exitCode,
             stdout_string := outText, stderr_string := errText }
    | _, _ => none
  else
    some { error_count := 0, warning_count := 0, exit_code := exitCode,
           stdout_string := outText, stderr_string := errText }

end Proc

namespace DepJson

/-- A JSON value as far as `read_dependency_json` (src/analyze.cpp) inspects
one through rapidjson: objects keep their member order. -/
inductive Json where
  | nullV
  | boolV (b : Bool)
  | numV (n : Int)
  | strV (s : String)
  | arrV (elems : List Json)
  | objV (members : List (String × Json))

/-- A parsed dependency-cache entry (`source_file` in src/analyze.h): path,
direct dependency paths, and the `last_modified_time` initialised to
`fs::file_time_type::min()` (modelled `0`). -/
structure SourceEntry where
  file_path : String
  dependencies : List String
  last_modified_time : Nat
deriving DecidableEq, Repr

/-- The inner loop of `read_dependency_json` over one member's array value:
non-string elements abort with an error; string elements are normalised and
kept only when they exist on disk. -/
def collectDeps (fsExists : String → Bool) (normalize : String → String) :
    List Json → Option (List String)
  | [] => some []
  | Json.strV s :: rest =>
    let path := normalize s
    (collectDeps fsExists normalize rest).map
      (fun deps => if fsExists path then path :: deps else deps)
  | _ :: _ => none

/-- The member loop of `read_dependency_json`: members whose (normalised) name
does not exist on disk are skipped entirely; a member with an existing name
whose value is not an array, or whose array contains a non-string, makes the
function return an empty list together with an error message; otherwise the
entry is appended.  The result pairs the parsed entries with the `error`
out-parameter (`none` = `error` left empty). -/
def readMembers (fsExists : String → Bool) (normalize : String → String) :
    List (String × Json) → List SourceEntry × Option String
  | [] => ([], none)
  | (name, value) :: rest =>
    let namePath := normalize name
    if fsExists namePath then
      match value with
      | Json.arrV elems =>
        match collectDeps fsExists normalize elems with
        | none =>
          ([], some ("array element in value of member '" ++ name ++
            "' in dependency file must be a 'String'"))
        | some deps =>
          let (entries, err) := readMembers fsExists normalize rest
          match err with
          | some e => ([], some e)
          | none =>
            (⟨namePath, deps, 0⟩ :: entries, none)
      | _ =>
        ([], some ("value of member '" ++ name ++
          "' in dependency file must be an 'Array'"))
    else
      readMembers fsExists normalize rest

/-- `read_dependency_json` (src/analyze.cpp).  The file input is
`none` when the stream cannot be opened (returns empty, no error),
`some none` when rapidjson reports a parse error, and `some (some j)` for a
parsed document `j`. -/
def readDependencyJson (fsExists : String → Bool) (normalize : String → String)
    (input : Option (Option Json)) : List SourceEntry × Option String :=
  match input with
  | none => ([], none)
  | some none => ([], some "an error occurred while parsing the dependency file")
  | some (some j) =>
    match j with
    | Json.objV members => readMembers fsExists normalize members
    | _ => ([], some "top level value in dependency file must be an 'Object'")

/-- How `build_project` (src/main.cpp) consumes `read_dependency_json`'s error
out-parameter: a non-empty error is reported and the function returns `1`;
otherwise the build continues (modelled as exit `0` of this phase) with the
parsed entries. -/
def depCachePhase (fsExists : String → Bool) (normalize : String → String)
    (input : Option (Option Json)) : Int × List SourceEntry :=
  match readDependencyJson fsExists normalize input with
  | (_, some _) => (1, [])
  | (entries, none) => (0, entries)

/-- Whether a JSON value fails the `IsString` check of the element loop. -/
def nonStringElem : Json → Bool
  | Json.strV _ => false
  | _ => true

/-- Whether a member aborts `read_dependency_json` with an error: its
normalised name exists on disk, and its value is either not an array or an
array containing a non-string element. -/
def badMember (fsExists : String → Bool) (normalize : String → String)
    (m : String × Json) : Bool :=
  fsExists (normalize m.1) &&
    (match m.2 with
     | Json.arrV elems => elems.any nonStringElem
     | _ => true)

end DepJson

namespace Resolve

/-- One textual include extracted by the scanner (`include_file` in
src/analyze.cpp): the text between the delimiters and whether it was
angle-bracketed. -/
structure IncludeFile where
  path : String
  is_library : Bool
deriving DecidableEq, Repr

/-- The search-directory loop shared by both branches of the resolution lambda
in `get_dependencies` (src/analyze.cpp): try `dir / include.path` for each
configured directory in order, returning the absolute form of the first hit,
and the empty path when none exists.  `fsExists`, `absP` and `joinP` model
`fs::exists`, `fs::absolute` and `operator/`; the empty string models
`fs::path{}`. -/
def searchDirs (fsExists : String → Bool) (absP : String → String)
    (joinP : String → String → String) : List String → String → String
  | [], _ => ""
  | dir :: dirs, incPath =>
    if fsExists (joinP dir incPath) then absP (joinP dir incPath)
    else searchDirs fsExists absP joinP dirs incPath

/-- The body of the `transform` lambda in `get_dependencies`: an
angle-bracketed include tries only the search directories; a quoted include
first tries the including file's own directory, then the search directories. -/
def resolveInclude (fsExists : String → Bool) (absP : String → String)
    (joinP : String → String → String) (sourceDir : String)
    (includeDirs : List String) (inc : IncludeFile) : String :=
  if inc.is_library then
    searchDirs fsExists absP joinP includeDirs inc.path
  else
    let relativePath := joinP sourceDir inc.path
    if fsExists relativePath then absP relativePath
    else searchDirs fsExists absP joinP includeDirs inc.path

/-- `get_dependencies` (src/analyze.cpp) applied to the scanner's output:
resolve every include and drop the empty results. -/
def getDependencies (fsExists : String → Bool) (absP : String → String)
    (joinP : String → String → String) (sourceDir : String)
    (includeDirs : List String) (includes : List IncludeFile) : List String :=
  (includes.map (resolveInclude fsExists absP joinP sourceDir includeDirs)).filter
    (fun p => p ≠ "")

/-- The candidate list the specification prescribes (spec.md §4.1): for a
quoted include the including file's own directory followed by the configured
search directories, for an angle-bracketed include the search directories
only, in their configured order. -/
def specCandidates (joinP : String → String → String) (sourceDir : String)
    (includeDirs : List String) (inc : IncludeFile) : List String :=
  if inc.is_library then includeDirs.map (fun d => joinP d inc.path)
  else joinP sourceDir inc.path :: includeDirs.map (fun d => joinP d inc.path)

/-- The specification-level resolution: the first existing candidate, made
absolute; `none` when no candidate exists. -/
def specResolve (fsExists : String → Bool) (absP : String → String)
    (joinP : String → String → String) (sourceDir : String)
    (includeDirs : List String) (inc : IncludeFile) : Option String :=
  ((specCandidates joinP sourceDir includeDirs inc).find? fsExists).map absP

end Resolve

namespace Scan

/-- An include recorded by `get_includes` (src/analyze.cpp), with the path as
the raw character sequence between the delimiters. -/
structure IncludeRef where
  path : List Char
  is_library : Bool
deriving DecidableEq, Repr

/-- The block-comment loop of `find_next_hash` (src/analyze.cpp), entered just
after the characters `/*` have been consumed: scan forward until `*/` (and
step past it) or until fewer than two characters remain, consuming everything.
The bound in the result type records that the iterator only moves forward. -/
def skipBlockComment : (l : List Char) → { r : List Char // r.length ≤ l.length }
  | [] => ⟨[], Nat.le_refl 0⟩
  | [_] => ⟨[], by simp⟩
  | '*' :: '/' :: rest => ⟨rest, by simp; omega⟩
  | _ :: c :: rest =>
    ⟨(skipBlockComment (c :: rest)).1, by
      have h := (skipBlockComment (c :: rest)).2
      simp at h ⊢; omega⟩

/-- The line-comment loop of `find_next_hash`: advance while not at a newline;
the newline itself is left in place. -/
def dropLineComment : (l : List Char) → { r : List Char // r.length ≤ l.length }
  | [] => ⟨[], Nat.le_refl 0⟩
  | c :: rest =>
    if c = '\n' then ⟨c :: rest, Nat.le_refl _⟩
    else
      ⟨(dropLineComment rest).1, by
        have h := (dropLineComment rest).2
        simp; omega⟩

/-- The `find_next_hash` lambda of `get_includes` (src/analyze.cpp): scan
forward, tracking whether we are at the beginning of a logical line, skipping
comments, and stop at a `#` that begins a line (returning the suffix starting
at that `#`) or at end of input. -/
def findNextHash : List Char → Bool → List Char
  | [], _ => []
  | '\n' :: rest, _ => findNextHash rest true
  | ' ' :: rest, b => findNextHash rest b
  | '\t' :: rest, b => findNextHash rest b
  | '\r' :: rest, b => findNextHash rest b
  | '#' :: rest, b => if b then '#' :: rest else findNextHash rest b
  | '/' :: '*' :: rest, b => findNextHash (skipBlockComment rest).1 b
  | '/' :: '/' :: rest, b => findNextHash (dropLineComment rest).1 b
  | '/' :: rest, _ => findNextHash rest false
  | _ :: rest, _ => findNextHash rest false
termination_by l _ => l.length
decreasing_by
  all_goals simp
  · have h := (skipBlockComment rest).2; omega
  · have h := (dropLineComment rest).2; omega

/-- The whitespace skip at the start of `is_include_directive` and
`get_include_file` (src/analyze.cpp): advance over spaces and tabs. -/
def skipHorizSpace : (l : List Char) → { r : List Char // r.length ≤ l.length }
  | [] => ⟨[], Nat.le_refl 0⟩
  | c :: rest =>
    if c = ' ' ∨ c = '\t' then
      ⟨(skipHorizSpace rest).1, by
        have h := (skipHorizSpace rest).2
        simp; omega⟩
    else ⟨c :: rest, Nat.le_refl _⟩

/-- The identifier-character test of `is_include_directive`
(src/analyze.cpp). -/
def isIdentChar (c : Char) : Bool :=
  ('0' ≤ c && c ≤ '9') || ('a' ≤ c && c ≤ 'z') || ('A' ≤ c && c ≤ 'Z') || c = '_'

/-- The identifier consumption loop of `is_include_directive`: drop identifier
characters, remembering how far the iterator moved. -/
def dropIdent : (l : List Char) → { r : List Char // r.length ≤ l.length }
  | [] => ⟨[], Nat.le_refl 0⟩
  | c :: rest =>
    if isIdentChar c then
      ⟨(dropIdent rest).1, by
        have h := (dropIdent rest).2
        simp; omega⟩
    else ⟨c :: rest, Nat.le_refl _⟩

/-- The identifier read by `is_include_directive`, for comparison with
`include`. -/
def takeIdent : List Char → List Char
  | [] => []
  | c :: rest => if isIdentChar c then c :: takeIdent rest else []

/-- `is_include_directive` (src/analyze.cpp) after its leading `#` has been
consumed: skip spaces and tabs, read the directive identifier, and report
whether it is exactly `include`, together with the rest of the input. -/
def directiveAfterHash (l : List Char) : Bool × { r : List Char // r.length ≤ l.length } :=
  let l1 := skipHorizSpace l
  (takeIdent l1.1 = ['i', 'n', 'c', 'l', 'u', 'd', 'e'],
   ⟨(dropIdent l1.1).1, Nat.le_trans (dropIdent l1.1).2 l1.2⟩)

/-- The characters `std::string(file_name_begin, file_name_end)` collects:
everything before the first occurrence of `stop`, or the whole remaining input
when `stop` never occurs. -/
def takeUntilChar (stop : Char) : List Char → List Char
  | [] => []
  | c :: rest => if c = stop then [] else c :: takeUntilChar stop rest

/-- The iterator position after `it = file_name_end` (`std::find(it, end,
stop)`): the suffix starting at the first occurrence of `stop`, or empty when
`stop` never occurs. -/
def dropUntilChar (stop : Char) : (l : List Char) → { r : List Char // r.length ≤ l.length }
  | [] => ⟨[], Nat.le_refl 0⟩
  | c :: rest =>
    if c = stop then ⟨c :: rest, Nat.le_refl _⟩
    else
      ⟨(dropUntilChar stop rest).1, by
        have h := (dropUntilChar stop rest).2
        simp; omega⟩

/-- `get_include_file` (src/analyze.cpp): skip spaces and tabs; on `<` record
everything up to the next `>` (or to end of file) as a library include, on `"`
likewise up to the next `"` as a quoted include, leaving the iterator on the
closing delimiter; on anything else (or end of input) record nothing and stay
put. -/
def getIncludeFile (l : List Char) : Option IncludeRef × { r : List Char // r.length ≤ l.length } :=
  match h : skipHorizSpace l with
  | ⟨[], _⟩ => (none, ⟨[], Nat.zero_le _⟩)
  | ⟨'<' :: rest, hle⟩ =>
    (some { path := takeUntilChar '>' rest, is_library := true },
     ⟨(dropUntilChar '>' rest).1, by
       have h2 := (dropUntilChar '>' rest).2
       simp at hle; omega⟩)
  | ⟨'"' :: rest, hle⟩ =>
    (some { path := takeUntilChar '"' rest, is_library := false },
     ⟨(dropUntilChar '"' rest).1, by
       have h2 := (dropUntilChar '"' rest).2
       simp at hle; omega⟩)
  | ⟨c :: rest, hle⟩ => (none, ⟨c :: rest, hle⟩)

/-- The outer `while (it != end)` loop of `get_includes` (src/analyze.cpp),
with explicit fuel: find the next line-initial `#`, test the directive, and on
`include` collect the delimiter token.  `none` means the fuel ran out; every
iteration from a non-empty position strictly advances the iterator, which is
what the totality theorem below makes precise. -/
def scanLoop : Nat → List Char → Option (List IncludeRef)
  | 0, _ => none
  | fuel + 1, cs =>
    if cs.isEmpty then some []
    else
      match findNextHash cs true with
      | [] => some []
      | _ :: rest =>
        let (isInc, r1) := directiveAfterHash rest
        if isInc then
          match getIncludeFile r1.1 with
          | (some inc, r2) => (scanLoop fuel r2.1).map (inc :: ·)
          | (none, r2) => scanLoop fuel r2.1
        else scanLoop fuel r1.1

/-- `get_includes` (src/analyze.cpp) on a character sequence, with fuel that
the totality theorem shows is always sufficient. -/
def getIncludes (cs : List Char) : Option (List IncludeRef) :=
  scanLoop (cs.length + 1) cs

end Scan

namespace Rules

/-- A build rule as `run_rule` (src/main.cpp) accesses it: name, dependency
list, command list, and the file-rule flag. -/
structure OsRule where
  rule_name : String
  dependencies : List String
  commands : List String
  is_file : Bool
deriving DecidableEq, Repr

/-- `run_rule_result_t` (src/main.cpp). -/
structure RunRuleResult where
  exit_code : Int
  any_run : Bool
  last_update_time : Nat
deriving DecidableEq, Repr

/-- The external collaborators `run_rule` consults: the filesystem and the
shell.  Commands are modelled as a pure exit-code function and the filesystem
as fixed for the duration of one resolution; the circular-dependency analysis
below never reaches the command phase, so this abstraction is not load
bearing there. -/
structure RuleEnv where
  fsExists : String → Bool
  fsLwt : String → Nat
  absP : String → String
  runCmd : String → Int

/-- Outcome of the dependency loop inside `run_rule`: either an early `return`
(an error from a dependency, or a dependency's nonzero exit code) or normal
completion with the accumulated result. -/
inductive DepOutcome where
  | abort (err : String) (res : RunRuleResult)
  | done (acc : RunRuleResult)

/-- The command loop of `run_rule`: run each command in declared order and
stop at the first nonzero exit code. -/
def runCommandsLoop (runCmd : String → Int) : List String → Int
  | [] => 0
  | cmd :: rest =>
    let e := runCmd cmd
    if e ≠ 0 then e else runCommandsLoop runCmd rest

mutual

/-- `run_rule` (src/main.cpp), with explicit fuel for its unbounded recursion
into dependencies; `none` means the fuel ran out, i.e. the call has not
returned within that recursion depth.  The returned string is the `error`
out-parameter (empty = no error).  Note that the source contains no
in-progress marker of any kind: a rule is looked up, its dependencies are run
recursively, and nothing records that the rule itself is still being
resolved. -/
def runRule (env : RuleEnv) (rules : List OsRule) (configLastUpdate : Nat)
    (errorOnUnknownRule : Bool) : Nat → String → Option (String × RunRuleResult)
  | 0, _ => none
  | fuel + 1, ruleToRun =>
    match rules.find? (fun r =>
        ruleToRun = r.rule_name || (r.is_file && env.absP ruleToRun = env.absP r.rule_name)) with
    | none =>
      if errorOnUnknownRule && !env.fsExists ruleToRun then
        some ("'" ++ ruleToRun ++ "' is not a rule name or a file", ⟨0, false, 0⟩)
      else
        some ("", ⟨0, false, env.fsLwt ruleToRun⟩)
    | some r =>
      let lastRuleWriteTime := if env.fsExists ruleToRun then env.fsLwt ruleToRun else 0
      let init : RunRuleResult := ⟨0, false, if r.is_file then lastRuleWriteTime else 0⟩
      match runRuleDeps env rules configLastUpdate errorOnUnknownRule fuel r.dependencies init with
      | none => none
      | some (DepOutcome.abort err res) => some (err, res)
      | some (DepOutcome.done acc) =>
        if !r.is_file || !env.fsExists ruleToRun
            || lastRuleWriteTime < max configLastUpdate acc.last_update_time then
          let acc1 := { acc with any_run := true }
          let e := runCommandsLoop env.runCmd r.commands
          if e ≠ 0 then some ("", { acc1 with exit_code := e })
          else if r.is_file && env.fsExists ruleToRun then
            some ("", { acc1 with last_update_time := env.fsLwt ruleToRun })
          else
            some ("", acc1)
        else
          some ("", acc)
termination_by fuel _ => (fuel, 0)

/-- The dependency loop of `run_rule`: run each dependency, bail out on an
error or a nonzero exit code, and fold `any_run` and the dependency update
times into the accumulator. -/
def runRuleDeps (env : RuleEnv) (rules : List OsRule) (configLastUpdate : Nat)
    (errorOnUnknownRule : Bool) : Nat → List String → RunRuleResult → Option DepOutcome
  | _, [], acc => some (DepOutcome.done acc)
  | fuel, dep :: deps, acc =>
    match runRule env rules configLastUpdate errorOnUnknownRule fuel dep with
    | none => none
    | some (err, res) =>
      if err ≠ "" then some (DepOutcome.abort err ⟨0, false, 0⟩)
      else
        let acc1 := { acc with
          any_run := acc.any_run || res.any_run,
          last_update_time := max acc.last_update_time res.last_update_time }
        if res.exit_code ≠ 0 then
          some (DepOutcome.abort "" { acc1 with exit_code := res.exit_code })
        else
          runRuleDeps env rules configLastUpdate errorOnUnknownRule fuel deps acc1
termination_by fuel deps _ => (fuel, deps.length + 1)

end

/-- The two-rule cyclic graph of the specification's test scenario: rule `A`
depends on rule `B` and rule `B` depends on rule `A`; both are logical rules
with one command each. -/
def cycleRules : List OsRule :=
  [⟨"A", ["B"], ["build-a"], false⟩, ⟨"B", ["A"], ["build-b"], false⟩]

end Rules

namespace Graph

/-- A source file as built by `add_source_file` (src/analyze.cpp): resolved
absolute path (a `Nat` identifier), direct dependency paths, and the effective
timestamp, `0` standing for `fs::file_time_type::min()`. -/
structure SourceFile where
  path : Nat
  dependencies : List Nat
  last_modified_time : Nat
deriving DecidableEq, Repr

/-- The filesystem as the dependency scanner sees it: the files that exist,
each with the dependency list that `get_dependencies` resolves for it
(scanning plus include resolution, modelled in detail in `Cppb.Scan` and
`Cppb.Resolve`). -/
abbrev FsGraph := List (Nat × List Nat)

/-- The paths that exist in the scanned filesystem. -/
def keys (g : FsGraph) : List Nat := g.map (·.1)

/-- The dependency list `analyze_source_file` computes for a path: the
filesystem's resolved include list, empty for a file that is not there. -/
def depsOf (g : FsGraph) (p : Nat) : List Nat :=
  match g.find? (fun e => e.1 = p) with
  | some e => e.2
  | none => []

mutual

/-- `add_source_file` (src/analyze.cpp), with explicit fuel for its recursion:
a path already present in the collection returns immediately (the
duplicate-file branch); otherwise the freshly analyzed file is appended —
before its dependencies are processed — its dependencies are added
recursively, and finally its `last_modified_time` is computed from its own
disk mtime and the dependencies' current entries. -/
def addSourceFile (g : FsGraph) (lwt : Nat → Nat) :
    Nat → List SourceFile → Nat → Option (List SourceFile)
  | 0, _, _ => none
  | fuel + 1, state, p =>
    if (state.find? (fun f => f.path = p)).isSome then some state
    else
      let deps := depsOf g p
      let idx := state.length
      let state1 := state ++ [⟨p, deps, 0⟩]
      match addDepsList g lwt fuel state1 deps with
      | none => none
      | some state2 =>
        let depsLmt :=
          (deps.filterMap
            (fun d => (state2.find? (fun f => f.path = d)).map (·.last_modified_time))).foldl
            max 0
        some (state2.set idx ⟨p, deps, max (lwt p) depsLmt⟩)
termination_by fuel _ _ => (fuel, 0)

/-- The dependency loop of `add_source_file`. -/
def addDepsList (g : FsGraph) (lwt : Nat → Nat) :
    Nat → List SourceFile → List Nat → Option (List SourceFile)
  | _, state, [] => some state
  | fuel, state, d :: ds =>
    match addSourceFile g lwt fuel state d with
    | none => none
    | some state' => addDepsList g lwt fuel state' ds
termination_by fuel _ ds => (fuel, ds.length + 1)

end

/-- The root loop of `analyze_source_files` (src/analyze.cpp), giving every
root the fuel `g.length + 1`, which the termination theorem shows always
suffices. -/
def addAllRoots (g : FsGraph) (lwt : Nat → Nat) :
    List Nat → List SourceFile → Option (List SourceFile)
  | [], state => some state
  | root :: roots, state =>
    match addSourceFile g lwt (g.length + 1) state root with
    | none => none
    | some state' => addAllRoots g lwt roots state'

/-- `analyze_source_files` (src/analyze.cpp): carry over the still-valid
previously known entries, then add every root file (and, recursively, its
dependencies). -/
def analyzeSourceFiles (g : FsGraph) (lwt : Nat → Nat) (fsExists : Nat → Bool)
    (files : List Nat) (sources : List SourceFile)
    (depFileLastUpdate configLastUpdate : Nat) : Option (List SourceFile) :=
  let nonUpdated := sources.filter (fun s =>
    fsExists s.path && s.last_modified_time < depFileLastUpdate
      && configLastUpdate < depFileLastUpdate)
  addAllRoots g lwt files nonUpdated

/-- The number of scanned filesystem paths not yet present in the collection —
the decreasing measure behind `add_source_file`'s termination. -/
def missingCount (g : FsGraph) (state : List SourceFile) : Nat :=
  ((keys g).filter (fun k => (state.find? (fun f => f.path = k)).isNone)).length

end Graph

namespace Times

/-- The entries `fill_last_modified_times` works on have the same shape as the
graph builder's. -/
abbrev SourceFile := Graph.SourceFile

/-- The direct-dependency function of the analyzed collection: the dependency
list stored with the (first) entry for a path, empty for unknown paths. -/
def depsOfSources (sources : List SourceFile) (p : Nat) : List Nat :=
  match sources.find? (fun f => f.path = p) with
  | some f => f.dependencies
  | none => []

mutual

/-- `get_and_fill_last_modified_time` (src/analyze.cpp), with explicit fuel
for its unbounded recursion.  A non-`min` (non-zero) memo value is returned as
is; otherwise the entry's memo slot is seeded with the file's own disk mtime
before the dependencies are visited, and finally overwritten with the computed
maximum.  `none` arises from fuel exhaustion or from a dependency that has no
entry (where the C++ asserts). -/
def gaf (lwt : Nat → Nat) : Nat → List SourceFile → Nat → Option (List SourceFile × Nat)
  | 0, _, _ => none
  | fuel + 1, state, p =>
    match state.findIdx? (fun f => f.path = p) with
    | none => none
    | some i =>
      match state[i]? with
      | none => none
      | some f =>
        if f.last_modified_time ≠ 0 then some (state, f.last_modified_time)
        else
          let state1 := state.set i { f with last_modified_time := lwt p }
          match gafDeps lwt fuel state1 f.dependencies (lwt p) with
          | none => none
          | some (state2, m) => some (state2.set i { f with last_modified_time := m }, m)
termination_by fuel _ _ => (fuel, 0)

/-- The `transform(...).max(initial)` fold over an entry's dependencies inside
`get_and_fill_last_modified_time`. -/
def gafDeps (lwt : Nat → Nat) :
    Nat → List SourceFile → List Nat → Nat → Option (List SourceFile × Nat)
  | _, state, [], acc => some (state, acc)
  | fuel, state, d :: ds, acc =>
    match gaf lwt fuel state d with
    | none => none
    | some (state', t) => gafDeps lwt fuel state' ds (max acc t)
termination_by fuel _ ds _ => (fuel, ds.length + 1)

end

/-- The loop body sequence of `fill_last_modified_times` (src/analyze.cpp):
for each entry in order, recompute its `last_modified_time` as the maximum of
its own disk mtime and the (memoized) effective times of its direct
dependencies.  The counter mirrors the iteration over the vector; each
`get_and_fill` call receives fuel `state.length + 1`, which the theorems show
always suffices. -/
def fillGo (lwt : Nat → Nat) : Nat → Nat → List SourceFile → Option (List SourceFile)
  | 0, _, state => some state
  | k + 1, j, state =>
    match state[j]? with
    | none => some state
    | some f =>
      match gafDeps lwt (state.length + 1) state f.dependencies (lwt f.path) with
      | none => none
      | some (state2, m) =>
        fillGo lwt k (j + 1) (state2.set j { f with last_modified_time := m })

/-- `fill_last_modified_times` (src/analyze.cpp). -/
def fillLastModifiedTimes (lwt : Nat → Nat) (sources : List SourceFile) :
    Option (List SourceFile) :=
  fillGo lwt sources.length 0 sources

/-- The specification's effective time (spec.md §4.3):
`effective_time(f) = max(disk_mtime(f), max over d in deps(f) of
effective_time(d))`, unrolled to a given depth.  On any finite dependency
graph the value is stable once the depth reaches the number of files, because
every reachable file is reachable by a path without repeated nodes. -/
def effSpec (lwt : Nat → Nat) (deps : Nat → List Nat) : Nat → Nat → Nat
  | 0, p => lwt p
  | fuel + 1, p =>
    max (lwt p) (((deps p).map (effSpec lwt deps fuel)).foldr max 0)

/-- A five-file collection whose include relation has the cycle `3 ↔ 4`:
file 1 depends on 3; file 2 depends on 4; file 3 on 4 and 5; file 4 on 3;
file 5 on nothing. -/
def exSources : List SourceFile :=
  [⟨1, [3], 0⟩, ⟨2, [4], 0⟩, ⟨3, [4, 5], 0⟩, ⟨4, [3], 0⟩, ⟨5, [], 0⟩]

/-- Disk mtimes for the example: file 5 was touched at time 10, everything
else at time 1. -/
def exLwt : Nat → Nat := fun p => if p = 5 then 10 else 1

/-- The part of an entry that `fill_last_modified_times` never writes: its
path and its dependency list. -/
def skeleton (l : List SourceFile) : List (Nat × List Nat) :=
  l.map fun f => (f.path, f.dependencies)

/-- The number of entries whose memo slot is still `file_time_type::min()` —
the decreasing measure behind `get_and_fill_last_modified_time`'s
termination. -/
def zeroCount (l : List SourceFile) : Nat :=
  l.countP fun f => f.last_modified_time = 0

/-- The direct dependency edges of an analyzed collection. -/
def DepEdge (sources : List SourceFile) (x y : Nat) : Prop :=
  ∃ f ∈ sources, f.path = x ∧ y ∈ f.dependencies

/-- Reachability along dependency edges. -/
def Reaches (sources : List SourceFile) : Nat → Nat → Prop :=
  Relation.ReflTransGen (DepEdge sources)

end Times

namespace Sched

/-- User-visible events produced by `run_commands` (src/main.cpp), plus the
bookkeeping event of the orchestrator observing one invocation's completion
(storing its result from the future). -/
inductive Ev where
  | progressLine (i : Nat)
  | outputText (i : Nat)
  | completion (i : Nat)
deriving DecidableEq, Repr

/-- `report_until_index(endIdx)` (src/main.cpp): for each `i` from
`next_index_to_report` up to and including `endIdx`, print the captured output
of invocation `i - 1` (when `i ≠ 0`) and then the progress line `(i+1/N)`;
afterwards `next_index_to_report` becomes `endIdx + 1`. -/
def reportUntil (next endIdx : Nat) : List Ev :=
  ((List.range (endIdx + 1 - next)).map (fun k =>
    let i := next + k
    (if i ≠ 0 then [Ev.outputText (i - 1)] else []) ++ [Ev.progressLine i])).flatten

/-- The orchestrator's state inside `run_commands`: the queue of
pending (submitted, not yet collected) invocation indices, the
`next_index_to_report` counter, a step counter consulted by the completion
schedule, and the event trace so far. -/
structure SchedState where
  pending : List Nat
  next : Nat
  step : Nat
  trace : List Ev
deriving Repr

/-- The submission loop of `run_commands`: when the pool is full, report up to
the oldest pending index, then wait for some finished future — which one is
decided by the completion `schedule`, the model's stand-in for the
unconstrained completion order — store its result and drop it from the queue;
then submit the next invocation. -/
def submitLoop (jobCount : Nat) (schedule : Nat → Nat) :
    List Nat → SchedState → SchedState
  | [], st => st
  | i :: is, st =>
    let st1 :=
      if st.pending.length = jobCount then
        let front := st.pending.head?.getD 0
        let pickIdx := schedule st.step % st.pending.length
        let chosen := (st.pending[pickIdx]?).getD 0
        { pending := st.pending.eraseIdx pickIdx,
          next := front + 1,
          step := st.step + 1,
          trace := st.trace ++ reportUntil st.next front ++ [Ev.completion chosen] }
      else st
    submitLoop jobCount schedule is { st1 with pending := st1.pending ++ [i] }

/-- The drain loop of `run_commands`: the still-pending futures are collected
in queue order, reporting up to each index before blocking on its result. -/
def drainLoop : List Nat → Nat → List Ev → List Ev
  | [], _, trace => trace
  | idx :: rest, next, trace =>
    drainLoop rest (idx + 1) (trace ++ reportUntil next idx ++ [Ev.completion idx])

/-- The whole of `run_commands` (src/main.cpp) as an event trace: submit `n`
invocations through a pool of `jobCount` workers under a given completion
schedule, drain the queue, and finally print the last invocation's captured
output. -/
def runCommandsTrace (n jobCount : Nat) (schedule : Nat → Nat) : List Ev :=
  let st := submitLoop jobCount schedule (List.range n) ⟨[], 0, 0, []⟩
  let tr := drainLoop st.pending st.next st.trace
  if n ≠ 0 then tr ++ [Ev.outputText (n - 1)] else tr

/-- The progress-line indices of a trace, in emission order. -/
def progressIndices (tr : List Ev) : List Nat :=
  tr.filterMap (fun e =>
    match e with
    | Ev.progressLine i => some i
    | _ => none)

/-- Every captured-output event is preceded by the observed completion of
every invocation with index at most the output's index. -/
def outputsDelayed (tr : List Ev) : Prop :=
  ∀ (n j : Nat), tr[n]? = some (Ev.outputText j) →
    ∀ k, k ≤ j → ∃ m : Nat, m < n ∧ tr[m]? = some (Ev.completion k)

/-- The state invariant of the submission loop, relative to the number of
invocations submitted so far: the pending queue is strictly increasing and
contains only submitted indices; every submitted index no longer pending has
its completion in the trace; the progress lines emitted so far are exactly
`0, …, next-1` in order; `next_index_to_report` never runs ahead of the
oldest pending index (or of the submission count when nothing is pending);
and output events sit behind the required completions. -/
def SchedInv (st : SchedState) (sub : Nat) : Prop :=
  List.Sorted (· < ·) st.pending ∧
  (∀ p ∈ st.pending, p < sub) ∧
  (∀ k, k < sub → k ∉ st.pending → Ev.completion k ∈ st.trace) ∧
  progressIndices st.trace = List.range st.next ∧
  (match st.pending.head? with
   | some h => st.next ≤ h + 1
   | none => st.next ≤ sub) ∧
  outputsDelayed st.trace

end Sched

/-! ## Theorems -/

/-- The `is_good` fold of `build_project_async` computes the conjunction of
"zero exit code and zero error count" over all results. -/
theorem Diag.isGoodFold_go (l : List Diag.CompileResult) (g : Bool) :
    List.foldl
      (fun g r =>
        if r.exit_code ≠ 0 ∨ r.error_count ≠ 0 ∨ r.warning_count ≠ 0 then
          g && decide (r.exit_code = 0) && decide (r.error_count = 0)
        else g) g l
      = (g && l.all fun r => decide (r.exit_code = 0) && decide (r.error_count = 0)) := by
  induction l generalizing g with
  | nil => simp
  | cons r t ih =>
    by_cases h : r.exit_code ≠ 0 ∨ r.error_count ≠ 0 ∨ r.warning_count ≠ 0
    · rw [List.foldl_cons, if_pos h, ih]
      simp [Bool.and_assoc]
    · push_neg at h
      obtain ⟨h1, h2, _⟩ := h
      simp [List.foldl_cons, h1, h2, ih]

/-- `is_good` is true exactly when every result has zero exit code and zero
error count. -/
theorem Diag.isGoodFold_eq_true_iff (results : List Diag.CompileResult) :
    Diag.isGoodFold results = true ↔
      ∀ r ∈ results, r.exit_code = 0 ∧ r.error_count = 0 := by
  unfold Diag.isGoodFold
  rw [Diag.isGoodFold_go]
  simp

/-- C8.  The compilation phase of `build_project_async` reports failure (exit
code `1`) exactly when some invocation has a nonzero exit code or a nonzero
parsed error count; a result whose only nonzero field is the warning count is
presented through `report_warning` and, on its own, leaves the build result at
`0`. -/
theorem Diag.claim_C8_failure_semantics (results : List Diag.CompileResult) :
    (Diag.buildPhaseExit results = 1 ↔
      ∃ r ∈ results, r.exit_code ≠ 0 ∨ r.error_count ≠ 0) ∧
    (∀ r : Diag.CompileResult,
      r.exit_code = 0 → r.error_count = 0 → r.warning_count ≠ 0 →
        Diag.classify r = Diag.ReportKind.warningReport ∧
          Diag.buildPhaseExit [r] = 0) := by
  constructor
  · unfold Diag.buildPhaseExit
    by_cases h : Diag.isGoodFold results
    · rw [if_pos h]
      rw [Diag.isGoodFold_eq_true_iff] at h
      constructor
      · intro h01; exact absurd h01 (by decide)
      · rintro ⟨r, hr, hbad⟩
        rcases hbad with hb | hb
        · exact absurd (h r hr).1 hb
        · exact absurd (h r hr).2 hb
    · rw [if_neg h]
      constructor
      · intro _
        by_contra hno
        push_neg at hno
        exact h ((Diag.isGoodFold_eq_true_iff results).mpr hno)
      · intro _; rfl
  · intro r h1 h2 h3
    refine ⟨?_, ?_⟩
    · unfold Diag.classify
      rw [if_pos (by tauto), if_neg (by tauto)]
    · unfold Diag.buildPhaseExit
      rw [if_pos]
      rw [Diag.isGoodFold_eq_true_iff]
      intro x hx
      simp only [List.mem_singleton] at hx
      subst hx
      exact ⟨h1, h2⟩

/-- C3 (counterexample).  An input where the object file is newer than every
relevant timestamp but the persisted record's hash and argument list disagree
with the current ones: the code's gate says "do not recompile" while the
specification's `should_recompile` says "recompile", so the gate of
`build_project_async` does not implement the record-based conditions the
claim lists. -/
theorem Gate.claim_C3_counterexample :
    Gate.shouldRecompileCode Gate.hashMismatchInput = false ∧
      Gate.shouldRecompileSpec Gate.hashMismatchInput = true := by
  exact ⟨rfl, rfl⟩

/-- C3 (amended).  The recompilation gate for object files returns true
exactly when the rebuild flag is set or the object's on-disk mtime (taken as
`min` when the object is missing) is older than the source's effective time,
the dependency-cache update time, or the relevant precompiled header's build
time; and it depends on nothing else — two inputs agreeing on those six
fields (in particular, inputs with arbitrarily different artifact records,
hashes, compiler identities, and argument lists) get the same answer. -/
theorem Gate.claim_C3_amended (i : Gate.GateInput) :
    (Gate.shouldRecompileCode i = true ↔
      (i.rebuild = true ∨
        Gate.objectLastWriteTime i < i.source_effective_time ∨
        Gate.objectLastWriteTime i < i.dependency_last_update ∨
        Gate.objectLastWriteTime i < i.pch_last_update)) ∧
    (∀ j : Gate.GateInput,
      j.rebuild = i.rebuild → j.object_exists = i.object_exists →
      j.object_time = i.object_time →
      j.source_effective_time = i.source_effective_time →
      j.dependency_last_update = i.dependency_last_update →
      j.pch_last_update = i.pch_last_update →
        Gate.shouldRecompileCode j = Gate.shouldRecompileCode i) := by
  constructor
  · unfold Gate.shouldRecompileCode
    simp [Bool.or_eq_true, decide_eq_true_iff, or_assoc]
  · intro j h1 h2 h3 h4 h5 h6
    unfold Gate.shouldRecompileCode Gate.objectLastWriteTime
    rw [h1, h2, h3, h4, h5, h6]

/-- Witness for the amended C3 theorem: instantiated at the hash-mismatch
input and a copy of it with an intact record, the gate answers `false` both
times. -/
theorem Gate.claim_C3_amended_witness :
    Gate.shouldRecompileCode
        { Gate.hashMismatchInput with record_hash := 78, record_args := ["-O2", "-c"] }
      = Gate.shouldRecompileCode Gate.hashMismatchInput ∧
    (Gate.shouldRecompileCode Gate.hashMismatchInput = true ↔
      (Gate.hashMismatchInput.rebuild = true ∨
        Gate.objectLastWriteTime Gate.hashMismatchInput
          < Gate.hashMismatchInput.source_effective_time ∨
        Gate.objectLastWriteTime Gate.hashMismatchInput
          < Gate.hashMismatchInput.dependency_last_update ∨
        Gate.objectLastWriteTime Gate.hashMismatchInput
          < Gate.hashMismatchInput.pch_last_update)) :=
  ⟨(Gate.claim_C3_amended Gate.hashMismatchInput).2
      { Gate.hashMismatchInput with record_hash := 78, record_args := ["-O2", "-c"] }
      rfl rfl rfl rfl rfl rfl,
   (Gate.claim_C3_amended Gate.hashMismatchInput).1⟩

/-- Witness for C8: a result with three warnings and clean exit is reported as
a warning and leaves the build result at `0`. -/
theorem Diag.claim_C8_witness :
    Diag.classify ⟨0, 0, 3⟩ = Diag.ReportKind.warningReport ∧
      Diag.buildPhaseExit [⟨0, 0, 3⟩] = 0 :=
  (Diag.claim_C8_failure_semantics [⟨0, 0, 3⟩]).2 ⟨0, 0, 3⟩ rfl rfl (by decide)

/-- A `find?` over `List.range` finds the least witness: the found index is in
range, satisfies the predicate, and nothing below it does. -/
theorem Proc.range_find?_min {n : Nat} {p : Nat → Bool} {i : Nat}
    (h : (List.range n).find? p = some i) :
    i < n ∧ p i = true ∧ ∀ j, j < i → p j = false := by
  induction n with
  | zero => simp at h
  | succ m ih =>
    rw [List.range_succ, List.find?_append] at h
    cases hm : (List.range m).find? p with
    | some i' =>
      rw [hm] at h
      simp only [Option.or_some] at h
      cases h
      obtain ⟨h1, h2, h3⟩ := ih hm
      exact ⟨Nat.lt_succ_of_lt h1, h2, h3⟩
    | none =>
      rw [hm, Option.none_or] at h
      rw [List.find?_eq_none] at hm
      by_cases hpm : p m = true
      · rw [List.find?_cons_of_pos _ hpm] at h
        cases h
        refine ⟨Nat.lt_succ_self _, hpm, fun j hj => ?_⟩
        cases hpj : p j with
        | false => rfl
        | true => exact absurd hpj (hm j (List.mem_range.mpr hj))
      · rw [List.find?_cons_of_neg _ (by simpa using hpm), List.find?_nil] at h
        cases h

/-- Splitting off the least occurrence: if `i` is the least index at or after
`start` where the pattern occurs, then the occurrences at or after `start`
number one more than the occurrences at or after `i + 1`. -/
theorem Proc.countP_split {s : List Char} {pat : List Char} {start i n : Nat}
    (hstart : start ≤ i) (hin : i < n)
    (hpi : pat.isPrefixOf (s.drop i) = true)
    (hmin : ∀ j, start ≤ j → j < i → pat.isPrefixOf (s.drop j) = false) :
    (List.range n).countP (fun j => start ≤ j && pat.isPrefixOf (s.drop j))
      = (List.range n).countP (fun j => i + 1 ≤ j && pat.isPrefixOf (s.drop j)) + 1 := by
  induction n with
  | zero => omega
  | succ m ih =>
    rw [List.range_succ, List.countP_append, List.countP_append]
    rcases Nat.lt_or_ge i m with him | him
    · rw [ih him]
      have : (List.countP (fun j => decide (start ≤ j) && pat.isPrefixOf (s.drop j)) [m])
          = (List.countP (fun j => decide (i + 1 ≤ j) && pat.isPrefixOf (s.drop j)) [m]) := by
        have h1 : decide (start ≤ m) = true := by simp; omega
        have h2 : decide (i + 1 ≤ m) = true := by simp; omega
        simp [List.countP_cons, h1, h2]
      omega
    · have him' : i = m := by omega
      subst him'
      have hz1 : (List.range i).countP
          (fun j => decide (start ≤ j) && pat.isPrefixOf (s.drop j)) = 0 := by
        rw [List.countP_eq_zero]
        intro j hj
        rw [List.mem_range] at hj
        by_cases hs : start ≤ j
        · simp [hmin j hs hj]
        · simp [hs]
      have hz2 : (List.range i).countP
          (fun j => decide (i + 1 ≤ j) && pat.isPrefixOf (s.drop j)) = 0 := by
        rw [List.countP_eq_zero]
        intro j hj
        rw [List.mem_range] at hj
        have : ¬ (i + 1 ≤ j) := by omega
        simp [this]
      have hc1 : (List.countP (fun j => decide (start ≤ j) && pat.isPrefixOf (s.drop j)) [i]) = 1 := by
        simp [List.countP_cons, hstart, hpi]
      have hc2 : (List.countP (fun j => decide (i + 1 ≤ j) && pat.isPrefixOf (s.drop j)) [i]) = 0 := by
        have : ¬ (i + 1 ≤ i) := by omega
        simp [List.countP_cons, this]
      omega

/-- A nonempty pattern that occurs at `i` forces `i` to be a proper position
of `s`. -/
theorem Proc.occurrence_lt_length {pat s : List Char} {i : Nat} (hpat : pat ≠ [])
    (h : pat.isPrefixOf (s.drop i) = true) : i < s.length := by
  have hp := (List.isPrefixOf_iff_prefix.mp h).length_le
  have : 1 ≤ pat.length := by
    cases pat with
    | nil => exact absurd rfl hpat
    | cons _ _ => simp
  have := s.length_drop i
  omega

/-- The counting loop of `run_process` with enough fuel computes exactly the
number of occurrence positions at or after `start`. -/
theorem Proc.countLoop_eq {pat s : List Char} (hpat : pat ≠ []) :
    ∀ fuel start, s.length - start < fuel →
      Proc.countLoop pat s fuel start
        = some ((List.range (s.length + 1)).countP
            (fun j => start ≤ j && pat.isPrefixOf (s.drop j))) := by
  intro fuel
  induction fuel with
  | zero => intro start h; omega
  | succ m ih =>
    intro start _
    rw [Proc.countLoop]
    cases hfind : Proc.strFind pat s start with
    | none =>
      unfold Proc.strFind at hfind
      rw [List.find?_eq_none] at hfind
      have : (List.range (s.length + 1)).countP
          (fun j => start ≤ j && pat.isPrefixOf (s.drop j)) = 0 := by
        rw [List.countP_eq_zero]
        exact fun j hj => hfind j hj
      rw [this]
    | some i =>
      have hfind' := hfind
      unfold Proc.strFind at hfind'
      obtain ⟨hle, hp, hmin⟩ := Proc.range_find?_min hfind'
      simp only [Bool.and_eq_true, decide_eq_true_eq] at hp
      obtain ⟨hstart, hocc⟩ := hp
      have hilt : i < s.length := Proc.occurrence_lt_length hpat hocc
      have hsplit := @Proc.countP_split s pat start i (s.length + 1)
        hstart (by omega) hocc
        (fun j hsj hji => by
          have hj := hmin j hji
          simpa [hsj] using hj)
      dsimp only
      rw [ih (i + 1) (by omega), hsplit]
      rfl

/-- The full counting pass equals the occurrence count. -/
theorem Proc.countSubstr_eq {pat s : List Char} (hpat : pat ≠ []) :
    Proc.countSubstr pat s = some (Proc.occurrenceCount pat s) := by
  unfold Proc.countSubstr Proc.occurrenceCount
  rw [Proc.countLoop_eq hpat (s.length + 1) 0 (by omega)]
  rw [← List.countP_eq_length_filter]
  congr 1
  apply List.countP_congr
  intro j _
  simp

/-- C10.  For a captured command, `run_process` reports `error_count` equal to
the number of occurrence positions of the literal substring `"error:"` in the
captured stderr text, and `warning_count` likewise for `"warning:"`; the
captured stdout text enters neither count (it appears in the result only as
stored text). -/
theorem Proc.claim_C10_diagnostic_counts (exitCode : Int) (outText errText : List Char) :
    Proc.runProcessModel true exitCode outText errText
      = some { error_count := Proc.occurrenceCount "error:".toList errText,
               warning_count := Proc.occurrenceCount "warning:".toList errText,
               exit_code := exitCode,
               stdout_string := outText,
               stderr_string := errText } := by
  unfold Proc.runProcessModel
  rw [Proc.countSubstr_eq (by decide), Proc.countSubstr_eq (by decide)]
  rfl

/-- The search-directory loop returns the absolute form of the first existing
candidate among `dir / path` for the configured directories, in order. -/
theorem Resolve.searchDirs_eq (fsExists : String → Bool) (absP : String → String)
    (joinP : String → String → String) (dirs : List String) (incPath : String) :
    Resolve.searchDirs fsExists absP joinP dirs incPath
      = match (dirs.map (fun d => joinP d incPath)).find? fsExists with
        | some c => absP c
        | none => "" := by
  induction dirs with
  | nil => rfl
  | cons d ds ih =>
    by_cases h : fsExists (joinP d incPath) = true
    · simp [Resolve.searchDirs, h, List.find?_cons_of_pos]
    · rw [List.map_cons, List.find?_cons_of_neg _ (by simpa using h)]
      simpa [Resolve.searchDirs, h] using ih

/-- Every specification-level candidate is of the form `joinP d s`. -/
theorem Resolve.specCandidates_shape (joinP : String → String → String)
    (sourceDir : String) (includeDirs : List String) (inc : Resolve.IncludeFile)
    {c : String} (hc : c ∈ Resolve.specCandidates joinP sourceDir includeDirs inc) :
    ∃ d s, c = joinP d s := by
  unfold Resolve.specCandidates at hc
  by_cases hl : inc.is_library
  · rw [if_pos hl] at hc
    obtain ⟨d, _, rfl⟩ := List.mem_map.mp hc
    exact ⟨d, inc.path, rfl⟩
  · rw [if_neg hl] at hc
    rcases List.mem_cons.mp hc with rfl | hc'
    · exact ⟨sourceDir, inc.path, rfl⟩
    · obtain ⟨d, _, rfl⟩ := List.mem_map.mp hc'
      exact ⟨d, inc.path, rfl⟩

/-- The resolution lambda of `get_dependencies` computes exactly the
specification's "first existing candidate, absolutized" (with the empty path
standing for `none`). -/
theorem Resolve.resolveInclude_eq (fsExists : String → Bool) (absP : String → String)
    (joinP : String → String → String) (sourceDir : String)
    (includeDirs : List String) (inc : Resolve.IncludeFile) :
    Resolve.resolveInclude fsExists absP joinP sourceDir includeDirs inc
      = (Resolve.specResolve fsExists absP joinP sourceDir includeDirs inc).getD "" := by
  unfold Resolve.resolveInclude Resolve.specResolve Resolve.specCandidates
  by_cases hl : inc.is_library
  · rw [if_pos hl, if_pos hl, Resolve.searchDirs_eq]
    cases hfind : (includeDirs.map (fun d => joinP d inc.path)).find? fsExists with
    | none => simp [hfind]
    | some c => simp [hfind]
  · rw [if_neg hl, if_neg hl]
    by_cases hrel : fsExists (joinP sourceDir inc.path) = true
    · rw [if_pos hrel, List.find?_cons_of_pos _ hrel]
      rfl
    · rw [if_neg hrel, List.find?_cons_of_neg _ (by simpa using hrel),
        Resolve.searchDirs_eq]
      cases hfind : (includeDirs.map (fun d => joinP d inc.path)).find? fsExists with
      | none => simp [hfind]
      | some c => simp [hfind]

/-- C5.  `get_dependencies` resolves every textual include in exactly the
specified order — a quoted include tries the including file's directory and
then the configured search directories, an angle-bracketed include only the
search directories, the first existing candidate winning and being returned
through `fs::absolute` — and drops includes with no existing candidate,
provided absolutized candidate paths are never the empty path (true of
`fs::absolute` on any nonempty path). -/
theorem Resolve.claim_C5_resolution_order (fsExists : String → Bool)
    (absP : String → String) (joinP : String → String → String)
    (sourceDir : String) (includeDirs : List String)
    (includes : List Resolve.IncludeFile)
    (habs : ∀ d s, absP (joinP d s) ≠ "") :
    Resolve.getDependencies fsExists absP joinP sourceDir includeDirs includes
      = includes.filterMap (Resolve.specResolve fsExists absP joinP sourceDir includeDirs) := by
  induction includes with
  | nil => rfl
  | cons inc rest ih =>
    unfold Resolve.getDependencies at ih ⊢
    rw [List.map_cons, List.filter_cons, List.filterMap_cons, Resolve.resolveInclude_eq]
    cases hres : Resolve.specResolve fsExists absP joinP sourceDir includeDirs inc with
    | none =>
      simpa using ih
    | some a =>
      have ha : a ≠ "" := by
        unfold Resolve.specResolve at hres
        obtain ⟨c, hfind, rfl⟩ := Option.map_eq_some'.mp hres
        obtain ⟨d, s, rfl⟩ := Resolve.specCandidates_shape joinP sourceDir includeDirs inc
          (List.mem_of_find?_eq_some hfind)
        exact habs d s
      simp only [Option.getD_some]
      rw [if_pos (by simpa using ha), ih]

/-- Witness for C5: with concrete collaborators (a constant absolutizer and a
two-directory search path where only the second directory holds the header),
an angle include resolves through the second directory and an unresolvable
quoted include is dropped. -/
theorem Resolve.claim_C5_witness :
    (∀ d s, (fun _ : String => "ABS") ((fun d s => d ++ "/" ++ s) d s) ≠ "") ∧
    Resolve.getDependencies (fun p => p = "d2/x.h") (fun _ => "ABS")
        (fun d s => d ++ "/" ++ s) "src" ["d1", "d2"]
        [⟨"x.h", true⟩, ⟨"y.h", false⟩]
      = ["ABS"] :=
  ⟨fun _ _ => show ("ABS" : String) ≠ "" by decide,
   Resolve.claim_C5_resolution_order (fun p => p = "d2/x.h") (fun _ => "ABS")
     (fun d s => d ++ "/" ++ s) "src" ["d1", "d2"]
     [⟨"x.h", true⟩, ⟨"y.h", false⟩]
     (fun _ _ => show ("ABS" : String) ≠ "" by decide)⟩

/-- C2.  On the cyclic rule graph `A depends_on B depends_on A`, `run_rule`
never returns, whatever the filesystem, shell, configuration timestamp, or
unknown-rule policy: for every recursion depth the call is still descending
into the `A → B → A → …` chain.  The source has no `resolving` marker and no
circular-dependency check of any kind (the only such check in the code base
guards config-file inheritance, not rules), so no error is ever reported and,
the command phase being unreachable, no command of either rule runs. -/
theorem Rules.claim_C2_cycle_divergence (env : Rules.RuleEnv)
    (configLastUpdate : Nat) (errorOnUnknownRule : Bool) :
    ∀ fuel : Nat,
      Rules.runRule env Rules.cycleRules configLastUpdate errorOnUnknownRule fuel "A" = none ∧
      Rules.runRule env Rules.cycleRules configLastUpdate errorOnUnknownRule fuel "B" = none := by
  intro fuel
  induction fuel with
  | zero => exact ⟨by simp [Rules.runRule], by simp [Rules.runRule]⟩
  | succ n ih =>
    constructor
    · have hfind : Rules.cycleRules.find? (fun r =>
          "A" = r.rule_name || (r.is_file && env.absP "A" = env.absP r.rule_name))
          = some ⟨"A", ["B"], ["build-a"], false⟩ := by
        rw [Rules.cycleRules, List.find?_cons_of_pos _ (by simp)]
      have hdeps : ∀ acc, Rules.runRuleDeps env Rules.cycleRules configLastUpdate
          errorOnUnknownRule n ["B"] acc = none := fun acc => by
        rw [Rules.runRuleDeps, ih.2]
      rw [Rules.runRule, hfind]
      dsimp only
      rw [hdeps]
    · have hfind : Rules.cycleRules.find? (fun r =>
          "B" = r.rule_name || (r.is_file && env.absP "B" = env.absP r.rule_name))
          = some ⟨"B", ["A"], ["build-b"], false⟩ := by
        rw [Rules.cycleRules, List.find?_cons_of_neg _ (by simp),
          List.find?_cons_of_pos _ (by simp)]
      have hdeps : ∀ acc, Rules.runRuleDeps env Rules.cycleRules configLastUpdate
          errorOnUnknownRule n ["A"] acc = none := fun acc => by
        rw [Rules.runRuleDeps, ih.1]
      rw [Rules.runRule, hfind]
      dsimp only
      rw [hdeps]

/-- The element loop over one member's array aborts exactly when some element
is not a string. -/
theorem DepJson.collectDeps_eq_none_iff (fsExists : String → Bool)
    (normalize : String → String) (elems : List DepJson.Json) :
    DepJson.collectDeps fsExists normalize elems = none ↔
      elems.any DepJson.nonStringElem = true := by
  induction elems with
  | nil => simp [DepJson.collectDeps]
  | cons e rest ih =>
    cases e with
    | strV s => simp [DepJson.collectDeps, DepJson.nonStringElem, ih]
    | nullV => simp [DepJson.collectDeps, DepJson.nonStringElem]
    | boolV b => simp [DepJson.collectDeps, DepJson.nonStringElem]
    | numV v => simp [DepJson.collectDeps, DepJson.nonStringElem]
    | arrV l => simp [DepJson.collectDeps, DepJson.nonStringElem]
    | objV l => simp [DepJson.collectDeps, DepJson.nonStringElem]

/-- The member loop sets the error out-parameter exactly when some member is
bad in the sense of `badMember`: its key path exists on disk and its value is
not an array of strings. -/
theorem DepJson.readMembers_error_eq (fsExists : String → Bool)
    (normalize : String → String) (members : List (String × DepJson.Json)) :
    (DepJson.readMembers fsExists normalize members).2.isSome
      = members.any (DepJson.badMember fsExists normalize) := by
  induction members with
  | nil => simp [DepJson.readMembers]
  | cons m rest ih =>
    obtain ⟨name, value⟩ := m
    by_cases hex : fsExists (normalize name) = true
    · cases value with
      | arrV elems =>
        cases hcd : DepJson.collectDeps fsExists normalize elems with
        | none =>
          have hany : elems.any DepJson.nonStringElem = true :=
            (DepJson.collectDeps_eq_none_iff fsExists normalize elems).mp hcd
          simp [DepJson.readMembers, hex, hcd, DepJson.badMember, hany]
        | some deps =>
          have hany : ¬ elems.any DepJson.nonStringElem = true := by
            rw [← DepJson.collectDeps_eq_none_iff fsExists normalize elems]
            simp [hcd]
          rcases hrm : DepJson.readMembers fsExists normalize rest with ⟨entries, err⟩
          rw [hrm] at ih
          cases err with
          | none =>
            simp only [Option.isSome_none] at ih
            simp [DepJson.readMembers, hex, hcd, hrm, DepJson.badMember,
              Bool.eq_false_iff.mpr hany, ← ih]
          | some e0 =>
            simp only [Option.isSome_some] at ih
            simp [DepJson.readMembers, hex, hcd, hrm, DepJson.badMember, ← ih]
      | nullV => simp [DepJson.readMembers, hex, DepJson.badMember]
      | boolV b => simp [DepJson.readMembers, hex, DepJson.badMember]
      | numV v => simp [DepJson.readMembers, hex, DepJson.badMember]
      | strV s => simp [DepJson.readMembers, hex, DepJson.badMember]
      | objV l => simp [DepJson.readMembers, hex, DepJson.badMember]
    · simp [DepJson.readMembers, hex, ih, DepJson.badMember, List.any_cons]

/-- The dependency-cache phase of `build_project` exits with `1` exactly when
`read_dependency_json` set its error out-parameter. -/
theorem DepJson.depCachePhase_exit_iff (fsExists : String → Bool)
    (normalize : String → String) (input : Option (Option DepJson.Json)) :
    (DepJson.depCachePhase fsExists normalize input).1 = 1 ↔
      (DepJson.readDependencyJson fsExists normalize input).2.isSome := by
  unfold DepJson.depCachePhase
  rcases h : DepJson.readDependencyJson fsExists normalize input with ⟨entries, err⟩
  cases err with
  | none => simp
  | some e => simp

/-- C4 (counterexample).  A dependency cache file that exists and parses but
whose top level is a JSON array (not an object) makes `build_project` report
an error and return exit code `1` — refuting the claim that a malformed
dependency cache is treated as absent and never by itself causes a nonzero
exit. -/
theorem DepJson.claim_C4_counterexample :
    DepJson.depCachePhase (fun _ => true) (fun s => s)
        (some (some (DepJson.Json.arrV []))) = (1, []) := rfl

/-- C4 (amended).  A dependency cache file that cannot be opened is treated as
absent (no error, empty carried-over set, the build proceeds); but a cache
file that opens and is malformed is fatal: the phase exits with `1` exactly
when the file has a JSON parse error, a non-object top level, or some member
whose (normalised) key path exists on disk and whose value is not an array of
strings.  Malformed members whose key path does not exist on disk are
silently skipped. -/
theorem DepJson.claim_C4_amended (fsExists : String → Bool)
    (normalize : String → String) (input : Option (Option DepJson.Json)) :
    DepJson.depCachePhase fsExists normalize none = (0, []) ∧
    ((DepJson.depCachePhase fsExists normalize input).1 = 1 ↔
      (input = some none ∨
       (∃ j, input = some (some j) ∧ ∀ members, j ≠ DepJson.Json.objV members) ∨
       (∃ members, input = some (some (DepJson.Json.objV members)) ∧
         members.any (DepJson.badMember fsExists normalize) = true))) := by
  refine ⟨rfl, ?_⟩
  rw [DepJson.depCachePhase_exit_iff]
  match input with
  | none =>
    simp [DepJson.readDependencyJson]
  | some none =>
    simp [DepJson.readDependencyJson]
  | some (some j) =>
    cases j with
    | objV members =>
      rw [show DepJson.readDependencyJson fsExists normalize (some (some (DepJson.Json.objV members)))
          = DepJson.readMembers fsExists normalize members from rfl]
      rw [Bool.eq_iff_iff.mp (DepJson.readMembers_error_eq fsExists normalize members)]
      constructor
      · intro h
        exact Or.inr (Or.inr ⟨members, rfl, h⟩)
      · rintro (h | ⟨j', hj', hno⟩ | ⟨ms, hms, h⟩)
        · cases h
        · obtain rfl : DepJson.Json.objV members = j' := by
            injection hj' with h1; injection h1
          exact absurd rfl (hno members)
        · obtain rfl : members = ms := by
            injection hms with h1; injection h1 with h2; injection h2
          exact h
    | nullV =>
      simp only [DepJson.readDependencyJson, Option.isSome_some, true_iff]
      exact Or.inr (Or.inl ⟨DepJson.Json.nullV, rfl, fun ms h => by cases h⟩)
    | boolV b =>
      simp only [DepJson.readDependencyJson, Option.isSome_some, true_iff]
      exact Or.inr (Or.inl ⟨DepJson.Json.boolV b, rfl, fun ms h => by cases h⟩)
    | numV v =>
      simp only [DepJson.readDependencyJson, Option.isSome_some, true_iff]
      exact Or.inr (Or.inl ⟨DepJson.Json.numV v, rfl, fun ms h => by cases h⟩)
    | strV s =>
      simp only [DepJson.readDependencyJson, Option.isSome_some, true_iff]
      exact Or.inr (Or.inl ⟨DepJson.Json.strV s, rfl, fun ms h => by cases h⟩)
    | arrV l =>
      simp only [DepJson.readDependencyJson, Option.isSome_some, true_iff]
      exact Or.inr (Or.inl ⟨DepJson.Json.arrV l, rfl, fun ms h => by cases h⟩)

/-- `find_next_hash` only moves the iterator forward. -/
theorem Scan.findNextHash_length_le (l : List Char) (b : Bool) :
    (Scan.findNextHash l b).length ≤ l.length := by
  induction l, b using Scan.findNextHash.induct with
  | case1 => simp [Scan.findNextHash]
  | case2 rest b ih =>
    rw [Scan.findNextHash]
    exact Nat.le_trans ih (by simp)
  | case3 rest b ih =>
    rw [Scan.findNextHash]
    exact Nat.le_trans ih (by simp)
  | case4 rest b ih =>
    rw [Scan.findNextHash]
    exact Nat.le_trans ih (by simp)
  | case5 rest b ih =>
    rw [Scan.findNextHash]
    exact Nat.le_trans ih (by simp)
  | case6 rest =>
    rw [Scan.findNextHash]
    simp
  | case7 rest b hb ih =>
    rw [Scan.findNextHash]
    rw [if_neg hb]
    exact Nat.le_trans ih (by simp)
  | case8 rest b ih =>
    rw [Scan.findNextHash]
    have h2 := (Scan.skipBlockComment rest).2
    simp only [List.length_cons]
    omega
  | case9 rest b ih =>
    rw [Scan.findNextHash]
    have h2 := (Scan.dropLineComment rest).2
    simp only [List.length_cons]
    omega
  | case10 rest x h1 h2 ih =>
    rw [Scan.findNextHash]
    · exact Nat.le_trans ih (by simp)
    · exact h1
    · exact h2
  | case11 head rest x h1 h2 h3 h4 h5 h6 h7 h8 ih =>
    rw [Scan.findNextHash]
    · exact Nat.le_trans ih (by simp)
    all_goals assumption

/-- C9 helper: the scanner's outer loop succeeds whenever the fuel exceeds the
remaining input length, because every iteration from a non-empty position
strictly advances the iterator. -/
theorem Scan.scanLoop_isSome : ∀ (fuel : Nat) (cs : List Char), cs.length < fuel →
    (Scan.scanLoop fuel cs).isSome = true := by
  intro fuel
  induction fuel with
  | zero => intro cs h; omega
  | succ n ih =>
    intro cs hlen
    rw [Scan.scanLoop]
    by_cases hcs : cs.isEmpty
    · simp [hcs]
    · rw [if_neg hcs]
      have hfnh := Scan.findNextHash_length_le cs true
      cases hres : Scan.findNextHash cs true with
      | nil => simp
      | cons c rest =>
        rw [hres] at hfnh
        simp only [List.length_cons] at hfnh
        have hrest : rest.length + 1 ≤ cs.length := hfnh
        rcases hdir : Scan.directiveAfterHash rest with ⟨isInc, r1⟩
        have hr1 : r1.1.length ≤ rest.length := r1.2
        dsimp only
        rw [hdir]
        dsimp only
        cases isInc with
        | false =>
          rw [if_neg (by simp)]
          exact ih r1.1 (by omega)
        | true =>
          rw [if_pos rfl]
          rcases hgi : Scan.getIncludeFile r1.1 with ⟨inc, r2⟩
          have hr2 : r2.1.length ≤ r1.1.length := r2.2
          cases inc with
          | some i =>
            simpa using ih r2.1 (by omega)
          | none =>
            exact ih r2.1 (by omega)

/-- An unterminated delimiter token records everything up to end of file. -/
theorem Scan.takeUntilChar_of_not_mem (stop : Char) (l : List Char) (h : stop ∉ l) :
    Scan.takeUntilChar stop l = l := by
  induction l with
  | nil => rfl
  | cons c rest ih =>
    rw [Scan.takeUntilChar, if_neg (by
      intro hc; exact h (hc ▸ List.mem_cons_self c rest))]
    rw [ih (fun hm => h (List.mem_cons_of_mem c hm))]

/-- When the closing delimiter never occurs, the iterator ends up at end of
file. -/
theorem Scan.dropUntilChar_of_not_mem (stop : Char) (l : List Char) (h : stop ∉ l) :
    (Scan.dropUntilChar stop l).1 = [] := by
  induction l with
  | nil => rfl
  | cons c rest ih =>
    rw [Scan.dropUntilChar, if_neg (by
      intro hc; exact h (hc ▸ List.mem_cons_self c rest))]
    exact ih (fun hm => h (List.mem_cons_of_mem c hm))

/-- C9.  The include scanner is total: on every input the outer loop of
`get_includes` finishes within `length + 1` iterations (each iteration from a
non-empty position strictly advances the iterator, all skipping loops
included, so no fuel is ever exhausted and no out-of-bounds access occurs);
and a `#include <` directive whose closing `>` never appears records the
entire remaining text up to end of file as the include path. -/
theorem Scan.claim_C9_scanner_total :
    (∀ cs : List Char, (Scan.getIncludes cs).isSome = true) ∧
    (∀ cs : List Char, '>' ∉ cs →
      Scan.getIncludes (['#', 'i', 'n', 'c', 'l', 'u', 'd', 'e', ' ', '<'] ++ cs)
        = some [{ path := cs, is_library := true }]) := by
  constructor
  · intro cs
    exact Scan.scanLoop_isSome (cs.length + 1) cs (Nat.lt_succ_self _)
  · intro cs h
    unfold Scan.getIncludes
    rw [show (['#', 'i', 'n', 'c', 'l', 'u', 'd', 'e', ' ', '<'] ++ cs).length + 1
        = cs.length + 11 from by simp]
    rw [Scan.scanLoop]
    rw [if_neg (by simp)]
    have hfnh : Scan.findNextHash (['#', 'i', 'n', 'c', 'l', 'u', 'd', 'e', ' ', '<'] ++ cs) true
        = '#' :: (['i', 'n', 'c', 'l', 'u', 'd', 'e', ' ', '<'] ++ cs) := by
      rw [show ['#', 'i', 'n', 'c', 'l', 'u', 'd', 'e', ' ', '<'] ++ cs
          = '#' :: (['i', 'n', 'c', 'l', 'u', 'd', 'e', ' ', '<'] ++ cs) from rfl]
      rw [Scan.findNextHash]
      simp
    rw [hfnh]
    dsimp only
    have hdir : Scan.directiveAfterHash (['i', 'n', 'c', 'l', 'u', 'd', 'e', ' ', '<'] ++ cs)
        = (true, ⟨' ' :: '<' :: cs, by simp⟩) := rfl
    rw [hdir]
    dsimp only
    rw [if_pos rfl]
    have hgif : Scan.getIncludeFile (' ' :: '<' :: cs)
        = (some { path := Scan.takeUntilChar '>' cs, is_library := true },
           ⟨(Scan.dropUntilChar '>' cs).1, by
             have := (Scan.dropUntilChar '>' cs).2
             simp
             omega⟩) := rfl
    rw [hgif]
    dsimp only
    rw [Scan.takeUntilChar_of_not_mem '>' cs h, Scan.dropUntilChar_of_not_mem '>' cs h]
    rw [show cs.length + 10 = (cs.length + 9) + 1 from rfl]
    rw [Scan.scanLoop]
    simp

/-- Witness for C9's unterminated-include clause, at the concrete tail
`foo.h(eof)`. -/
theorem Scan.claim_C9_witness :
    Scan.getIncludes (['#', 'i', 'n', 'c', 'l', 'u', 'd', 'e', ' ', '<']
        ++ ['f', 'o', 'o', '.', 'h'])
      = some [{ path := ['f', 'o', 'o', '.', 'h'], is_library := true }] :=
  Scan.claim_C9_scanner_total.2 ['f', 'o', 'o', '.', 'h'] (by decide)

/-- The duplicate check of `add_source_file` finds an entry exactly when the
path is already in the collection. -/
theorem Graph.find_path_isSome (state : List Graph.SourceFile) (p : Nat) :
    (state.find? (fun f => f.path = p)).isSome = true ↔ p ∈ state.map (·.path) := by
  rw [List.find?_isSome]
  simp [List.mem_map, eq_comm]

/-- If some element satisfies `p` but not `q`, and `q` implies `p` on the
list, then `q` holds strictly less often. -/
theorem Graph.countP_lt_of_witness {α : Type} {p q : α → Bool} :
    ∀ l : List α, (∀ a ∈ l, q a = true → p a = true) →
      ∀ x, x ∈ l → p x = true → q x = false → l.countP q < l.countP p := by
  intro l
  induction l with
  | nil => intro _ x hx; cases hx
  | cons a t ih =>
    intro hmono x hx hpx hqx
    rw [List.countP_cons, List.countP_cons]
    have hcount : t.countP q ≤ t.countP p :=
      List.countP_mono_left (fun b hb => hmono b (List.mem_cons_of_mem _ hb))
    rcases List.mem_cons.mp hx with rfl | hxt
    · simp only [hpx, hqx, Bool.false_eq_true, if_true, if_false]
      omega
    · have := ih (fun b hb => hmono b (List.mem_cons_of_mem _ hb)) x hxt hpx hqx
      have hle : (if q a = true then 1 else 0) ≤ (if p a = true then 1 else 0) := by
        by_cases hqa : q a = true
        · simp [hqa, hmono a (List.mem_cons_self _ _) hqa]
        · simp [hqa]
      omega

/-- Appending entries can only shrink the set of still-missing filesystem
paths. -/
theorem Graph.missingCount_append_le (g : Graph.FsGraph) (state tl : List Graph.SourceFile) :
    Graph.missingCount g (state ++ tl) ≤ Graph.missingCount g state := by
  unfold Graph.missingCount
  rw [← List.countP_eq_length_filter, ← List.countP_eq_length_filter]
  apply List.countP_mono_left
  intro k _ hk
  cases hfs : state.find? (fun f => f.path = k) with
  | none => simp
  | some v =>
    rw [List.find?_append, hfs] at hk
    simp at hk

/-- The number of missing paths is at most the number of scanned files. -/
theorem Graph.missingCount_le_len (g : Graph.FsGraph) (state : List Graph.SourceFile) :
    Graph.missingCount g state ≤ g.length := by
  unfold Graph.missingCount
  calc ((Graph.keys g).filter _).length ≤ (Graph.keys g).length := List.length_filter_le _ _
  _ = g.length := by simp [Graph.keys]

/-- Appending an entry for a scanned path that was not yet present strictly
decreases the missing count. -/
theorem Graph.missingCount_insert_lt (g : Graph.FsGraph) (state : List Graph.SourceFile)
    (entry : Graph.SourceFile) (hp : entry.path ∈ Graph.keys g)
    (hnew : (state.find? (fun f => f.path = entry.path)).isSome = false) :
    Graph.missingCount g (state ++ [entry]) < Graph.missingCount g state := by
  have hnone : state.find? (fun f => f.path = entry.path) = none := by
    cases hf : state.find? (fun f => f.path = entry.path) with
    | none => rfl
    | some v => rw [hf] at hnew; simp at hnew
  unfold Graph.missingCount
  rw [← List.countP_eq_length_filter, ← List.countP_eq_length_filter]
  apply Graph.countP_lt_of_witness (Graph.keys g)
  · intro k _ hk
    cases hfs : state.find? (fun f => f.path = k) with
    | none => simp
    | some v =>
      rw [List.find?_append, hfs] at hk
      simp at hk
  · exact hp
  · simp [hnone]
  · rw [List.find?_append, hnone, Option.none_or]
    simp [List.find?_cons_of_pos]

/-- The missing count only depends on the paths of the collection. -/
theorem Graph.missingCount_congr (g : Graph.FsGraph) (l1 l2 : List Graph.SourceFile)
    (h : l1.map (·.path) = l2.map (·.path)) :
    Graph.missingCount g l1 = Graph.missingCount g l2 := by
  unfold Graph.missingCount
  rw [← List.countP_eq_length_filter, ← List.countP_eq_length_filter]
  apply List.countP_congr
  intro k _
  have hiff : (l1.find? (fun f => f.path = k)).isSome
      = (l2.find? (fun f => f.path = k)).isSome := by
    rw [Bool.eq_iff_iff, Graph.find_path_isSome, Graph.find_path_isSome, h]
  have aux : ∀ o : Option Graph.SourceFile, o.isNone = !o.isSome := fun o => by
    cases o <;> rfl
  rw [aux, aux, hiff]

/-- The central totality/uniqueness invariant of `add_source_file` and its
dependency loop: with fuel exceeding the number of still-missing scanned
paths, both succeed, only append entries (never touching existing ones'
paths), add only scanned paths, do not increase the missing count, and keep
the path list duplicate free. -/
theorem Graph.addSourceFile_spec (g : Graph.FsGraph) (lwt : Nat → Nat)
    (hclosure : ∀ e ∈ g, ∀ d ∈ e.2, d ∈ Graph.keys g) :
    ∀ fuel : Nat,
      (∀ state p, p ∈ Graph.keys g → Graph.missingCount g state < fuel →
        ∃ st', Graph.addSourceFile g lwt fuel state p = some st' ∧
          (∃ tl, st' = state ++ tl) ∧
          p ∈ st'.map (·.path) ∧
          (∀ q ∈ st'.map (·.path), q ∈ state.map (·.path) ∨ q ∈ Graph.keys g) ∧
          Graph.missingCount g st' ≤ Graph.missingCount g state ∧
          ((state.map (·.path)).Nodup → (st'.map (·.path)).Nodup)) ∧
      (∀ state ds, (∀ d ∈ ds, d ∈ Graph.keys g) → Graph.missingCount g state < fuel →
        ∃ st', Graph.addDepsList g lwt fuel state ds = some st' ∧
          (∃ tl, st' = state ++ tl) ∧
          (∀ q ∈ st'.map (·.path), q ∈ state.map (·.path) ∨ q ∈ Graph.keys g) ∧
          Graph.missingCount g st' ≤ Graph.missingCount g state ∧
          ((state.map (·.path)).Nodup → (st'.map (·.path)).Nodup)) := by
  intro fuel
  induction fuel with
  | zero =>
    exact ⟨fun state p _ hm => absurd hm (by omega),
           fun state ds _ hm => absurd hm (by omega)⟩
  | succ n ihn =>
    obtain ⟨_, ihB⟩ := ihn
    have hA : ∀ state p, p ∈ Graph.keys g → Graph.missingCount g state < n + 1 →
        ∃ st', Graph.addSourceFile g lwt (n + 1) state p = some st' ∧
          (∃ tl, st' = state ++ tl) ∧
          p ∈ st'.map (·.path) ∧
          (∀ q ∈ st'.map (·.path), q ∈ state.map (·.path) ∨ q ∈ Graph.keys g) ∧
          Graph.missingCount g st' ≤ Graph.missingCount g state ∧
          ((state.map (·.path)).Nodup → (st'.map (·.path)).Nodup) := by
      intro state p hp hm
      rw [Graph.addSourceFile]
      by_cases hdup : (state.find? (fun f => f.path = p)).isSome = true
      · rw [if_pos hdup]
        exact ⟨state, rfl, ⟨[], by simp⟩, (Graph.find_path_isSome state p).mp hdup,
          fun q hq => Or.inl hq, Nat.le_refl _, id⟩
      · rw [if_neg hdup]
        dsimp only
        have hdeps_keys : ∀ d ∈ Graph.depsOf g p, d ∈ Graph.keys g := by
          unfold Graph.depsOf
          cases hfind : g.find? (fun e => e.1 = p) with
          | none => simp
          | some e =>
            intro d hd
            exact hclosure e (List.mem_of_find?_eq_some hfind) d hd
        have hlt := Graph.missingCount_insert_lt g state ⟨p, Graph.depsOf g p, 0⟩ hp
          (by simpa using hdup)
        obtain ⟨st2, hst2, ⟨tl2, htl2⟩, hsub2, hm2, hnd2⟩ :=
          ihB (state ++ [⟨p, Graph.depsOf g p, 0⟩]) (Graph.depsOf g p) hdeps_keys (by omega)
        rw [hst2]
        dsimp only
        have hpaths2 : st2.map (·.path)
            = state.map (·.path) ++ p :: tl2.map (·.path) := by
          rw [htl2]
          simp
        have hset : ∀ e' : Graph.SourceFile,
            st2.set state.length e' = state ++ e' :: tl2 := by
          intro e'
          rw [htl2, List.append_assoc, List.set_append_right _ _ (Nat.le_refl _)]
          simp
        have hpathsset : ∀ e' : Graph.SourceFile, e'.path = p →
            (st2.set state.length e').map (·.path) = st2.map (·.path) := by
          intro e' he'
          rw [hset, hpaths2]
          simp [he']
        have hpnot : p ∉ state.map (·.path) := fun hmem =>
          hdup ((Graph.find_path_isSome state p).mpr hmem)
        refine ⟨_, rfl, ?_, ?_, ?_, ?_, ?_⟩
        · rw [hset]
          exact ⟨_ :: tl2, rfl⟩
        · rw [hpathsset _ rfl, hpaths2]
          simp
        · intro q hq
          rw [hpathsset _ rfl] at hq
          rcases hsub2 q hq with hq' | hq'
          · simp only [List.map_append, List.map_cons, List.map_nil, List.mem_append,
              List.mem_cons, List.not_mem_nil, or_false] at hq'
            rcases hq' with hq' | hq'
            · exact Or.inl hq'
            · exact Or.inr (hq' ▸ hp)
          · exact Or.inr hq'
        · rw [Graph.missingCount_congr g _ st2 (hpathsset _ rfl)]
          omega
        · intro hnd
          rw [hpathsset _ rfl]
          apply hnd2
          simp [List.nodup_append, hnd, hpnot]
    refine ⟨hA, ?_⟩
    intro state ds
    induction ds generalizing state with
    | nil =>
      intro _ _
      exact ⟨state, by rw [Graph.addDepsList], ⟨[], by simp⟩,
        fun q hq => Or.inl hq, Nat.le_refl _, id⟩
    | cons d ds ihds =>
      intro hds hm
      obtain ⟨st1, hst1, ⟨tl1, htl1⟩, hmem1, hsub1, hm1, hnd1⟩ :=
        hA state d (hds d (List.mem_cons_self _ _)) hm
      rw [Graph.addDepsList, hst1]
      dsimp only
      obtain ⟨st', hst', ⟨tl', htl'⟩, hsub', hm', hnd'⟩ :=
        ihds st1 (fun x hx => hds x (List.mem_cons_of_mem _ hx)) (by omega)
      rw [hst']
      refine ⟨st', rfl, ?_, ?_, by omega, fun hnd => hnd' (hnd1 hnd)⟩
      · rw [htl', htl1, List.append_assoc]
        exact ⟨tl1 ++ tl', rfl⟩
      · intro q hq
        rcases hsub' q hq with hq' | hq'
        · exact hsub1 q hq'
        · exact Or.inr hq'

/-- The root loop of `analyze_source_files` always succeeds with fuel
`g.length + 1`, appends but never removes entries, covers every root, and keeps
paths duplicate free. -/
theorem Graph.addAllRoots_spec (g : Graph.FsGraph) (lwt : Nat → Nat)
    (hclosure : ∀ e ∈ g, ∀ d ∈ e.2, d ∈ Graph.keys g) :
    ∀ (files : List Nat) (state : List Graph.SourceFile),
      (∀ r ∈ files, r ∈ Graph.keys g) →
      ∃ result, Graph.addAllRoots g lwt files state = some result ∧
        (∃ tl, result = state ++ tl) ∧
        (∀ r ∈ files, r ∈ result.map (·.path)) ∧
        ((state.map (·.path)).Nodup → (result.map (·.path)).Nodup) := by
  intro files
  induction files with
  | nil =>
    intro state _
    exact ⟨state, by rw [Graph.addAllRoots], ⟨[], by simp⟩, by simp, id⟩
  | cons root roots ih =>
    intro state hroots
    obtain ⟨st1, hst1, ⟨tl1, htl1⟩, hmem1, _, _, hnd1⟩ :=
      (Graph.addSourceFile_spec g lwt hclosure (g.length + 1)).1 state root
        (hroots root (List.mem_cons_self _ _))
        (by have := Graph.missingCount_le_len g state; omega)
    rw [Graph.addAllRoots, hst1]
    dsimp only
    obtain ⟨result, hres, ⟨tl', htl'⟩, hmemall, hndall⟩ :=
      ih st1 (fun r hr => hroots r (List.mem_cons_of_mem _ hr))
    rw [hres]
    refine ⟨result, rfl, ?_, ?_, fun hnd => hndall (hnd1 hnd)⟩
    · rw [htl', htl1, List.append_assoc]
      exact ⟨tl1 ++ tl', rfl⟩
    · intro r hr
      rcases List.mem_cons.mp hr with rfl | hr'
      · rw [htl']
        simp only [List.map_append, List.mem_append]
        exact Or.inl hmem1
      · exact hmemall r hr'

/-- C6.  On every scanned file tree — include cycles allowed — dependency
graph construction by `analyze_source_files` terminates (the explicit fuel is
never exhausted), and each resolved path appears exactly once in the
resulting collection: a path that is already present returns from
`add_source_file` immediately without recursing, so the path list stays
duplicate free and contains every root. -/
theorem Graph.claim_C6_cycle_tolerance (g : Graph.FsGraph) (lwt : Nat → Nat)
    (fsExists : Nat → Bool) (files : List Nat) (sources : List Graph.SourceFile)
    (depFileLastUpdate configLastUpdate : Nat)
    (hclosure : ∀ e ∈ g, ∀ d ∈ e.2, d ∈ Graph.keys g)
    (hroots : ∀ r ∈ files, r ∈ Graph.keys g)
    (hnodup : (sources.map (·.path)).Nodup) :
    ∃ result,
      Graph.analyzeSourceFiles g lwt fsExists files sources
          depFileLastUpdate configLastUpdate = some result ∧
      (result.map (·.path)).Nodup ∧
      ∀ r ∈ files, r ∈ result.map (·.path) := by
  unfold Graph.analyzeSourceFiles
  obtain ⟨result, hres, _, hmem, hnd⟩ :=
    Graph.addAllRoots_spec g lwt hclosure files
      (sources.filter (fun s =>
        fsExists s.path && s.last_modified_time < depFileLastUpdate
          && configLastUpdate < depFileLastUpdate)) hroots
  refine ⟨result, hres, hnd ?_, hmem⟩
  exact List.Nodup.sublist ((List.filter_sublist sources).map (·.path)) hnodup

/-- Witness for C6, on the two-file include cycle `1 ↔ 2` with root `1`:
construction succeeds and each file appears exactly once. -/
theorem Graph.claim_C6_witness :
    ∃ result,
      Graph.analyzeSourceFiles [(1, [2]), (2, [1])] (fun _ => 1) (fun _ => true)
          [1] [] 0 0 = some result ∧
      (result.map (·.path)).Nodup ∧
      ∀ r ∈ [1], r ∈ result.map (·.path) :=
  Graph.claim_C6_cycle_tolerance [(1, [2]), (2, [1])] (fun _ => 1) (fun _ => true)
    [1] [] 0 0 (by decide) (by decide) (by decide)

/-- Progress indices distribute over trace concatenation. -/
theorem Sched.progressIndices_append (a b : List Sched.Ev) :
    Sched.progressIndices (a ++ b)
      = Sched.progressIndices a ++ Sched.progressIndices b :=
  List.filterMap_append a b _

/-- Flattening singleton blocks is mapping. -/
theorem Sched.flatten_singleton_map {α β : Type} (l : List α) (g : α → β) :
    (l.map (fun a => [g a])).flatten = l.map g := by
  induction l with
  | nil => rfl
  | cons a t ih => simp [ih]

/-- One report block emits exactly the progress lines `next, …, endIdx`, in
ascending order. -/
theorem Sched.progressIndices_reportUntil (next endIdx : Nat) :
    Sched.progressIndices (Sched.reportUntil next endIdx)
      = List.range' next (endIdx + 1 - next) := by
  unfold Sched.reportUntil Sched.progressIndices
  rw [List.filterMap_flatten, List.map_map]
  have hblock : ∀ k ∈ List.range (endIdx + 1 - next),
      ((List.filterMap fun e =>
          match e with
          | Ev.progressLine i => some i
          | _ => none) ∘ fun k =>
        (if next + k ≠ 0 then [Ev.outputText (next + k - 1)] else [])
          ++ [Ev.progressLine (next + k)]) k
      = [next + k] := by
    intro k _
    by_cases h : next + k ≠ 0 <;> simp [Function.comp, h]
  rw [List.map_congr_left hblock, Sched.flatten_singleton_map, List.range'_eq_map_range]

/-- Report blocks contain no completion events. -/
theorem Sched.completion_not_mem_reportUntil (next endIdx k : Nat) :
    Sched.Ev.completion k ∉ Sched.reportUntil next endIdx := by
  unfold Sched.reportUntil
  intro hmem
  rw [List.mem_flatten] at hmem
  obtain ⟨l, hl, hkl⟩ := hmem
  rw [List.mem_map] at hl
  obtain ⟨i, _, rfl⟩ := hl
  rcases List.mem_append.mp hkl with h | h
  · by_cases hi : next + i ≠ 0 <;> simp [hi] at h
  · simp at h

/-- An output event in a report block has index strictly below the reported
index. -/
theorem Sched.outputText_mem_reportUntil {next endIdx j : Nat}
    (h : Sched.Ev.outputText j ∈ Sched.reportUntil next endIdx) : j + 1 ≤ endIdx := by
  unfold Sched.reportUntil at h
  rw [List.mem_flatten] at h
  obtain ⟨l, hl, hjl⟩ := h
  rw [List.mem_map] at hl
  obtain ⟨i, hi, rfl⟩ := hl
  rw [List.mem_range] at hi
  rcases List.mem_append.mp hjl with h | h
  · by_cases hi0 : next + i ≠ 0
    · rw [if_pos hi0] at h
      simp at h
      omega
    · simp [hi0] at h
  · simp at h

/-- Appending a block whose output events are all already justified by the
existing trace preserves `outputsDelayed`. -/
theorem Sched.outputsDelayed_append {tr B : List Sched.Ev}
    (htr : Sched.outputsDelayed tr)
    (hB : ∀ j, Sched.Ev.outputText j ∈ B → ∀ k, k ≤ j → Sched.Ev.completion k ∈ tr) :
    Sched.outputsDelayed (tr ++ B) := by
  intro n j hn k hk
  rw [List.getElem?_append] at hn
  by_cases hlt : n < tr.length
  · rw [if_pos hlt] at hn
    obtain ⟨m, hm, hmc⟩ := htr n j hn k hk
    refine ⟨m, hm, ?_⟩
    rw [List.getElem?_append, if_pos (by omega)]
    exact hmc
  · rw [if_neg hlt] at hn
    have hjB : Sched.Ev.outputText j ∈ B := by
      have hsome : B[n - tr.length]? = some (Sched.Ev.outputText j) := hn
      have := List.getElem?_eq_some.mp hsome
      obtain ⟨hb, hv⟩ := this
      exact hv ▸ List.getElem_mem hb
    obtain ⟨m, hmlt, hmv⟩ := List.mem_iff_getElem.mp (hB j hjB k hk)
    refine ⟨m, by omega, ?_⟩
    rw [List.getElem?_append, if_pos hmlt, List.getElem?_eq_getElem hmlt, hmv]

/-- The head of a strictly sorted list is a lower bound. -/
theorem Sched.sorted_head_le {x : Nat} {xs : List Nat}
    (h : List.Sorted (· < ·) (x :: xs)) : ∀ y ∈ x :: xs, x ≤ y := by
  intro y hy
  rcases List.mem_cons.mp hy with rfl | hy'
  · exact Nat.le_refl _
  · exact Nat.le_of_lt ((List.sorted_cons.mp h).1 y hy')

/-- The contiguous progress ranges glue together. -/
theorem Sched.range_append_range' (a b : Nat) (h : a ≤ b) :
    List.range a ++ List.range' a (b - a) = List.range b := by
  rw [List.range_eq_range', List.range_eq_range']
  have h2 := List.range'_append 0 a (b - a) 1
  simp only [Nat.zero_add, Nat.one_mul] at h2
  rw [show b - a + a = b from by omega] at h2
  exact h2

/-- Submitting the next invocation index preserves the scheduler invariant. -/
theorem Sched.SchedInv_push {st : Sched.SchedState} {sub : Nat}
    (h : Sched.SchedInv st sub) :
    Sched.SchedInv { st with pending := st.pending ++ [sub] } (sub + 1) := by
  obtain ⟨h1, h2, h3, h4, h5, h6⟩ := h
  refine ⟨?_, ?_, ?_, h4, ?_, h6⟩
  · rw [List.Sorted, List.pairwise_append]
    exact ⟨h1, List.pairwise_singleton _ _, fun a ha b hb => by
      rw [List.mem_singleton] at hb
      exact hb ▸ h2 a ha⟩
  · intro p hp
    rcases List.mem_append.mp hp with hp' | hp'
    · exact Nat.lt_succ_of_lt (h2 p hp')
    · rw [List.mem_singleton] at hp'
      omega
  · intro k hk hkn
    have hk' : k < sub := by
      rcases Nat.lt_succ_iff_lt_or_eq.mp hk with h' | h'
      · exact h'
      · exact absurd (by simp [h']) hkn
    exact h3 k hk' (fun hc => hkn (List.mem_append.mpr (Or.inl hc)))
  · rw [List.head?_append]
    cases hh : st.pending.head? with
    | some hd =>
      rw [hh] at h5
      simpa using Nat.le_trans h5 (by omega)
    | none =>
      rw [hh] at h5
      simpa using Nat.le_trans h5 (by omega)

/-- Observing one completed invocation (whichever one the completion schedule
picks) preserves the scheduler invariant. -/
theorem Sched.SchedInv_complete {st : Sched.SchedState} {sub : Nat}
    (hne : st.pending ≠ [])
    (h : Sched.SchedInv st sub) (pick : Nat) :
    Sched.SchedInv
      { pending := st.pending.eraseIdx (pick % st.pending.length),
        next := st.pending.head?.getD 0 + 1,
        step := st.step + 1,
        trace := st.trace ++ Sched.reportUntil st.next (st.pending.head?.getD 0)
          ++ [Sched.Ev.completion ((st.pending[pick % st.pending.length]?).getD 0)] }
      sub := by
  obtain ⟨h1, h2, h3, h4, h5, h6⟩ := h
  obtain ⟨front, rest, hfr⟩ : ∃ front rest, st.pending = front :: rest := by
    cases hp : st.pending with
    | nil => exact absurd hp hne
    | cons a t => exact ⟨a, t, rfl⟩
  have hlen : 0 < st.pending.length := by rw [hfr]; simp
  have hpick : pick % st.pending.length < st.pending.length := Nat.mod_lt _ hlen
  have hchosen : (st.pending[pick % st.pending.length]?).getD 0
      = st.pending.get ⟨pick % st.pending.length, hpick⟩ := by
    rw [List.getElem?_eq_getElem hpick]
    rfl
  have hchosen_mem : st.pending.get ⟨pick % st.pending.length, hpick⟩ ∈ st.pending :=
    List.getElem_mem hpick
  have hfront : st.pending.head?.getD 0 = front := by rw [hfr]; rfl
  have hfront_le : ∀ y ∈ st.pending, front ≤ y := by
    rw [hfr]
    exact Sched.sorted_head_le (hfr ▸ h1)
  have hnext_le : st.next ≤ front + 1 := by
    rw [hfr] at h5
    simpa using h5
  refine ⟨?_, ?_, ?_, ?_, ?_, ?_⟩
  · exact List.Pairwise.sublist (List.eraseIdx_sublist _ _) h1
  · intro p hp
    exact h2 p (List.Sublist.mem hp (List.eraseIdx_sublist _ _))
  · intro k hk hkn
    by_cases hkc : k = (st.pending[pick % st.pending.length]?).getD 0
    · rw [hkc]
      simp
    · have hknp : k ∉ st.pending := by
        intro hkp
        obtain ⟨i, hilt, hiv⟩ := List.mem_iff_getElem.mp hkp
        by_cases hip : i = pick % st.pending.length
        · subst hip
          exact hkc ((hchosen.trans hiv).symm)
        · exact hkn (List.mem_eraseIdx_iff_getElem.mpr ⟨i, hilt, hip, hiv⟩)
      have := h3 k hk hknp
      simp only [List.mem_append]
      exact Or.inl (Or.inl this)
  · rw [Sched.progressIndices_append, Sched.progressIndices_append, h4,
      Sched.progressIndices_reportUntil, hfront]
    have hpc : Sched.progressIndices [Sched.Ev.completion
        ((st.pending[pick % st.pending.length]?).getD 0)] = [] := rfl
    rw [hpc, List.append_nil]
    exact Sched.range_append_range' st.next (front + 1) (by omega)
  · dsimp only
    cases he : (st.pending.eraseIdx (pick % st.pending.length)).head? with
    | some h' =>
      have h'mem : h' ∈ st.pending := by
        have : h' ∈ st.pending.eraseIdx (pick % st.pending.length) := List.mem_of_mem_head? he
        exact List.Sublist.mem this (List.eraseIdx_sublist _ _)
      have := hfront_le h' h'mem
      rw [hfront]
      omega
    | none =>
      rw [hfront]
      have : front < sub := h2 front (by rw [hfr]; exact List.mem_cons_self _ _)
      omega
  · apply Sched.outputsDelayed_append
    · apply Sched.outputsDelayed_append h6
      intro j hj k hk
      have hjf : j + 1 ≤ front := hfront ▸ Sched.outputText_mem_reportUntil hj
      have hks : k < sub := by
        have : front < sub := h2 front (by rw [hfr]; exact List.mem_cons_self _ _)
        omega
      apply h3 k hks
      intro hkp
      have := hfront_le k hkp
      omega
    · intro j hj k hk
      rw [List.mem_singleton] at hj
      cases hj

/-- The submission loop preserves the scheduler invariant across any block of
consecutive submissions, whatever the completion schedule does. -/
theorem Sched.submitLoop_inv (jobCount : Nat) (schedule : Nat → Nat)
    (hjc : 1 ≤ jobCount) :
    ∀ (k : Nat) (st : Sched.SchedState) (sub : Nat),
      Sched.SchedInv st sub →
      Sched.SchedInv (Sched.submitLoop jobCount schedule (List.range' sub k) st)
        (sub + k) := by
  intro k
  induction k with
  | zero =>
    intro st sub h
    simpa [Sched.submitLoop] using h
  | succ m ih =>
    intro st sub hinv
    rw [List.range'_succ, Sched.submitLoop]
    rw [show sub + (m + 1) = (sub + 1) + m from by omega]
    by_cases hfull : st.pending.length = jobCount
    · rw [if_pos hfull]
      have hne : st.pending ≠ [] := by
        intro hemp
        rw [hemp] at hfull
        simp at hfull
        omega
      exact ih _ (sub + 1) (Sched.SchedInv_push (Sched.SchedInv_complete hne hinv _))
    · rw [if_neg hfull]
      exact ih _ (sub + 1) (Sched.SchedInv_push hinv)

/-- The last submitted invocation is still pending when the submission loop
ends (completions are observed before each submission, never after the last
one). -/
theorem Sched.submitLoop_getLast (jobCount : Nat) (schedule : Nat → Nat) :
    ∀ (is : List Nat) (st : Sched.SchedState), is ≠ [] →
      (Sched.submitLoop jobCount schedule is st).pending.getLast? = is.getLast? := by
  intro is
  induction is with
  | nil => intro st h; exact absurd rfl h
  | cons i t ih =>
    intro st _
    rw [Sched.submitLoop]
    cases ht : t with
    | nil =>
      rw [Sched.submitLoop]
      simp
    | cons b u =>
      rw [← ht, ih _ (by rw [ht]; simp)]
      rw [ht]
      rfl

/-- The drain loop reports the remaining pending invocations in order: the
progress lines end up covering everything up to the last pending index, every
submitted invocation's completion is in the final trace, and outputs stay
behind the completions they require. -/
theorem Sched.drainLoop_spec :
    ∀ (pending : List Nat) (next : Nat) (trace : List Sched.Ev) (sub : Nat),
      List.Sorted (· < ·) pending →
      (∀ p ∈ pending, p < sub) →
      (∀ k, k < sub → k ∉ pending → Sched.Ev.completion k ∈ trace) →
      Sched.progressIndices trace = List.range next →
      (match pending.head? with
       | some h => next ≤ h + 1
       | none => True) →
      Sched.outputsDelayed trace →
      Sched.progressIndices (Sched.drainLoop pending next trace)
          = List.range (match pending.getLast? with
                        | some l => l + 1
                        | none => next) ∧
        Sched.outputsDelayed (Sched.drainLoop pending next trace) ∧
        (∀ k, k < sub → Sched.Ev.completion k ∈ Sched.drainLoop pending next trace) := by
  intro pending
  induction pending with
  | nil =>
    intro next trace sub _ _ h3 h4 _ h6
    rw [Sched.drainLoop]
    exact ⟨h4, h6, fun k hk => h3 k hk (List.not_mem_nil k)⟩
  | cons idx rest ih =>
    intro next trace sub h1 h2 h3 h4 h5 h6
    rw [Sched.drainLoop]
    have hnext_le : next ≤ idx + 1 := by simpa using h5
    have hidx_le : ∀ y ∈ idx :: rest, idx ≤ y := Sched.sorted_head_le h1
    have hidx_sub : idx < sub := h2 idx (List.mem_cons_self _ _)
    have h1' : List.Sorted (· < ·) rest := (List.sorted_cons.mp h1).2
    have h2' : ∀ p ∈ rest, p < sub := fun p hp => h2 p (List.mem_cons_of_mem _ hp)
    have h3' : ∀ k, k < sub → k ∉ rest →
        Sched.Ev.completion k ∈ trace ++ Sched.reportUntil next idx
          ++ [Sched.Ev.completion idx] := by
      intro k hk hkr
      by_cases hki : k = idx
      · rw [hki]
        simp
      · have : k ∉ idx :: rest := by
          intro hc
          rcases List.mem_cons.mp hc with hc' | hc'
          · exact hki hc'
          · exact hkr hc'
        simp only [List.mem_append]
        exact Or.inl (Or.inl (h3 k hk this))
    have h4' : Sched.progressIndices (trace ++ Sched.reportUntil next idx
        ++ [Sched.Ev.completion idx]) = List.range (idx + 1) := by
      rw [Sched.progressIndices_append, Sched.progressIndices_append, h4,
        Sched.progressIndices_reportUntil]
      rw [show Sched.progressIndices [Sched.Ev.completion idx] = [] from rfl,
        List.append_nil]
      exact Sched.range_append_range' next (idx + 1) hnext_le
    have h5' : match rest.head? with
        | some h => idx + 1 ≤ h + 1
        | none => True := by
      cases hr : rest.head? with
      | some h' =>
        have : idx < h' := (List.sorted_cons.mp h1).1 h' (List.mem_of_mem_head? hr)
        omega
      | none => trivial
    have h6' : Sched.outputsDelayed (trace ++ Sched.reportUntil next idx
        ++ [Sched.Ev.completion idx]) := by
      apply Sched.outputsDelayed_append
      · apply Sched.outputsDelayed_append h6
        intro j hj k hk
        have hjf : j + 1 ≤ idx := Sched.outputText_mem_reportUntil hj
        apply h3 k (by omega)
        intro hkp
        have := hidx_le k hkp
        omega
      · intro j hj k hk
        rw [List.mem_singleton] at hj
        cases hj
    obtain ⟨c1, c2, c3⟩ := ih (idx + 1) _ sub h1' h2' h3' h4' h5' h6'
    refine ⟨?_, c2, c3⟩
    rw [c1]
    cases hr : rest with
    | nil => simp
    | cons b u =>
      rw [List.getLast?_cons_cons]
      cases hl : (b :: u).getLast? with
      | some l => rfl
      | none => simp at hl

/-- C7.  For every number of invocations, every pool bound of at least one
worker and every completion schedule, the trace of `run_commands` emits the
progress lines exactly in submission order `0, …, n-1`, and the captured
output of an invocation is printed only after the completions of all
invocations with index at most its own have been observed — out-of-order
completions are buffered, never reported early or reordered. -/
theorem Sched.claim_C7_ordered_reporting (n jobCount : Nat) (schedule : Nat → Nat)
    (hjc : 1 ≤ jobCount) :
    Sched.progressIndices (Sched.runCommandsTrace n jobCount schedule) = List.range n ∧
    Sched.outputsDelayed (Sched.runCommandsTrace n jobCount schedule) := by
  cases n with
  | zero =>
    refine ⟨rfl, ?_⟩
    intro a j ha
    rw [show Sched.runCommandsTrace 0 jobCount schedule = [] from rfl] at ha
    simp at ha
  | succ m =>
    have hinv0 : Sched.SchedInv ⟨[], 0, 0, []⟩ 0 := by
      refine ⟨List.sorted_nil, ?_, ?_, rfl, ?_, ?_⟩
      · intro p hp
        exact absurd hp (List.not_mem_nil p)
      · intro k hk
        omega
      · exact Nat.le_refl 0
      · intro a j ha
        simp at ha
    have hinv := Sched.submitLoop_inv jobCount schedule hjc (m + 1) ⟨[], 0, 0, []⟩ 0 hinv0
    rw [← List.range_eq_range', Nat.zero_add] at hinv
    set st := Sched.submitLoop jobCount schedule (List.range (m + 1)) ⟨[], 0, 0, []⟩
      with hst
    obtain ⟨i1, i2, i3, i4, i5, i6⟩ := hinv
    have hhead : match st.pending.head? with
        | some h => st.next ≤ h + 1
        | none => True := by
      cases hp : st.pending.head? with
      | some h =>
        rw [hp] at i5
        exact i5
      | none => trivial
    have hlast : st.pending.getLast? = some m := by
      rw [hst,
        Sched.submitLoop_getLast jobCount schedule (List.range (m + 1)) _ (by simp),
        List.range_succ, List.getLast?_concat]
    obtain ⟨c1, c2, c3⟩ :=
      Sched.drainLoop_spec st.pending st.next st.trace (m + 1) i1 i2 i3 i4 hhead i6
    rw [hlast] at c1
    have c1' : Sched.progressIndices (Sched.drainLoop st.pending st.next st.trace)
        = List.range (m + 1) := c1
    have hrun : Sched.runCommandsTrace (m + 1) jobCount schedule
        = Sched.drainLoop st.pending st.next st.trace ++ [Sched.Ev.outputText m] := by
      rw [hst]
      rfl
    rw [hrun]
    constructor
    · rw [Sched.progressIndices_append, c1',
        show Sched.progressIndices [Sched.Ev.outputText m] = [] from rfl,
        List.append_nil]
    · apply Sched.outputsDelayed_append c2
      intro j hj k hk
      rw [List.mem_singleton] at hj
      injection hj with hjm
      subst hjm
      exact c3 k (by omega)

/-- C7 witness: three invocations through a two-worker pool under a concrete
out-of-order completion schedule. -/
theorem Sched.claim_C7_witness :
    Sched.progressIndices (Sched.runCommandsTrace 3 2 (fun s => s + 1)) = List.range 3 ∧
    Sched.outputsDelayed (Sched.runCommandsTrace 3 2 (fun s => s + 1)) :=
  Sched.claim_C7_ordered_reporting 3 2 (fun s => s + 1) (by decide)

/-- Folding `max` from the left equals `max` of the seed with the fold from
the right — the shape of the `transform(...).max(initial)` fold. -/
theorem Times.foldl_max_eq (l : List Nat) : ∀ a : Nat, l.foldl max a = max a (l.foldr max 0) := by
  induction l with
  | nil => intro a; simp
  | cons x t ih =>
    intro a
    rw [List.foldl_cons, ih, List.foldr_cons, Nat.max_assoc]

/-- Writing back the value already stored at an index leaves a list
unchanged. -/
theorem Times.set_getElem_self {α : Type} :
    ∀ (l : List α) (i : Nat) (v : α), l[i]? = some v → l.set i v = l := by
  intro l
  induction l with
  | nil =>
    intro i v h
    simp at h
  | cons a t ih =>
    intro i v h
    cases i with
    | zero =>
      simp only [List.getElem?_cons_zero, Option.some.injEq] at h
      rw [show (a :: t).set 0 v = v :: t from rfl, h]
    | succ j =>
      show a :: t.set j v = a :: t
      rw [ih j v (by simpa using h)]

/-- Replacing one element changes a `countP` by the difference of the two
elements' predicate values. -/
theorem Times.countP_set_eq {α : Type} (q : α → Bool) :
    ∀ (l : List α) (i : Nat) (f g : α), l[i]? = some f →
      (l.set i g).countP q + (if q f then 1 else 0)
        = l.countP q + (if q g then 1 else 0) := by
  intro l
  induction l with
  | nil =>
    intro i f g h
    simp at h
  | cons a t ih =>
    intro i f g h
    cases i with
    | zero =>
      simp only [List.getElem?_cons_zero, Option.some.injEq] at h
      subst h
      show (g :: t).countP q + _ = _
      rw [List.countP_cons, List.countP_cons]
      by_cases hf : q a <;> by_cases hg : q g <;> simp [hf, hg]
    | succ j =>
      show (a :: t.set j g).countP q + _ = _
      rw [List.countP_cons, List.countP_cons]
      have := ih j f g (by simpa using h)
      omega

/-- A list containing an element satisfying a predicate yields a successful
`findIdx?`, landing on an element that satisfies the predicate. -/
theorem Times.findIdx?_mem_aux {α : Type} (q : α → Bool) :
    ∀ (l : List α) (s : Nat), (∃ f ∈ l, q f) →
      ∃ i f, l.findIdx? q s = some (s + i) ∧ l[i]? = some f ∧ q f := by
  intro l
  induction l with
  | nil =>
    intro s h
    obtain ⟨f, hf, _⟩ := h
    exact absurd hf (List.not_mem_nil f)
  | cons a t ih =>
    intro s h
    rw [List.findIdx?_cons]
    by_cases ha : q a
    · exact ⟨0, a, by rw [if_pos ha, Nat.add_zero], by simp, ha⟩
    · obtain ⟨f, hf, hqf⟩ := h
      have hft : f ∈ t := by
        rcases List.mem_cons.mp hf with rfl | h'
        · exact absurd hqf ha
        · exact h'
      obtain ⟨i, g, hfind, hget, hqg⟩ := ih (s + 1) ⟨f, hft, hqf⟩
      refine ⟨i + 1, g, ?_, by simpa using hget, hqg⟩
      rw [if_neg ha, hfind]
      congr 1
      omega

/-- In a collection with pairwise-distinct paths, two indexed entries with the
same path are the same index. -/
theorem Times.nodup_paths_index {state : List Times.SourceFile}
    (hnd : (state.map fun f => f.path).Nodup) {i j : Nat} {f g : Times.SourceFile}
    (hi : state[i]? = some f) (hj : state[j]? = some g) (hp : f.path = g.path) :
    i = j := by
  have hi' : (state.map fun f => f.path)[i]? = some f.path := by
    rw [List.getElem?_map, hi]
    rfl
  have hj' : (state.map fun f => f.path)[j]? = some f.path := by
    rw [List.getElem?_map, hj, hp]
    rfl
  rw [List.getElem?_eq_some] at hi' hj'
  obtain ⟨hil, hiv⟩ := hi'
  obtain ⟨hjl, hjv⟩ := hj'
  have hgg : (state.map fun f => f.path).get ⟨i, hil⟩
      = (state.map fun f => f.path).get ⟨j, hjl⟩ := by
    show (state.map fun f => f.path)[i] = (state.map fun f => f.path)[j]
    rw [hiv, hjv]
  exact congrArg Fin.val (List.nodup_iff_injective_get.mp hnd hgg)

/-- Equal skeletons have equal path lists. -/
theorem Times.skeleton_paths {state sources : List Times.SourceFile}
    (h : Times.skeleton state = Times.skeleton sources) :
    state.map (fun f => f.path) = sources.map (fun f => f.path) := by
  have := congrArg (List.map Prod.fst) h
  simpa [Times.skeleton, List.map_map, Function.comp] using this

/-- Equal skeletons have equal lengths. -/
theorem Times.skeleton_length {state sources : List Times.SourceFile}
    (h : Times.skeleton state = Times.skeleton sources) :
    state.length = sources.length := by
  have := congrArg List.length h
  simpa [Times.skeleton] using this

/-- An entry of a collection with the original skeleton corresponds to an
original entry with the same path and dependency list. -/
theorem Times.skeleton_mem {state sources : List Times.SourceFile}
    (h : Times.skeleton state = Times.skeleton sources) {f : Times.SourceFile}
    (hf : f ∈ state) :
    ∃ g ∈ sources, g.path = f.path ∧ g.dependencies = f.dependencies := by
  have hmem : (f.path, f.dependencies) ∈ Times.skeleton sources := by
    rw [← h]
    exact List.mem_map.mpr ⟨f, hf, rfl⟩
  obtain ⟨g, hg, hgeq⟩ := List.mem_map.mp hmem
  exact ⟨g, hg, congrArg Prod.fst hgeq, congrArg Prod.snd hgeq⟩

/-- Overwriting only the timestamp of an entry preserves the skeleton. -/
theorem Times.skeleton_set (v : Times.SourceFile) {l : List Times.SourceFile}
    {i : Nat} {f₂ : Times.SourceFile} (hi : l[i]? = some f₂)
    (hp : v.path = f₂.path) (hd : v.dependencies = f₂.dependencies) :
    Times.skeleton (l.set i v) = Times.skeleton l := by
  unfold Times.skeleton
  rw [List.map_set]
  apply Times.set_getElem_self
  rw [List.getElem?_map, hi]
  simp [hp, hd]

/-- Along dependency edges a topological rank only decreases, so reachability
implies a rank inequality. -/
theorem Times.rank_le_of_reaches {sources : List Times.SourceFile} {rank : Nat → Nat}
    (hrank : ∀ f ∈ sources, ∀ d ∈ f.dependencies, rank d < rank f.path)
    {x y : Nat} (h : Times.Reaches sources x y) : rank y ≤ rank x := by
  induction h with
  | refl => exact Nat.le_refl _
  | tail hxy hyz ih =>
    obtain ⟨f, hf, rfl, hz⟩ := hyz
    exact Nat.le_trans (Nat.le_of_lt (hrank f hf _ hz)) ih

/-- With pairwise-distinct paths, `find?` on a member's path returns exactly
that member. -/
theorem Times.find?_path_of_nodup :
    ∀ (sources : List Times.SourceFile) (f : Times.SourceFile),
      (sources.map fun f => f.path).Nodup → f ∈ sources →
      sources.find? (fun g => g.path = f.path) = some f := by
  intro sources
  induction sources with
  | nil =>
    intro f _ hf
    exact absurd hf (List.not_mem_nil f)
  | cons a t ih =>
    intro f hnd hf
    rw [List.map_cons, List.nodup_cons] at hnd
    rcases List.mem_cons.mp hf with rfl | hft
    · exact List.find?_cons_of_pos _ (by simp)
    · by_cases hap : a.path = f.path
      · exact absurd (hap ▸ List.mem_map.mpr ⟨f, hft, rfl⟩) hnd.1
      · rw [List.find?_cons_of_neg _ (by simp [hap])]
        exact ih f hnd.2 hft

/-- A file without dependencies has its own disk mtime as effective time, at
every unrolling depth. -/
theorem Times.effSpec_of_nil {lwt : Nat → Nat} {deps : Nat → List Nat} {fuel p : Nat}
    (h : deps p = []) : Times.effSpec lwt deps fuel p = lwt p := by
  cases fuel with
  | zero => rfl
  | succ k => simp [Times.effSpec, h]

/-- On rank-acyclic dependency functions, one extra unit of unrolling depth
beyond a file's rank does not change its effective time. -/
theorem Times.effSpec_succ (lwt : Nat → Nat) (deps : Nat → List Nat) (rank : Nat → Nat)
    (hedge : ∀ p, ∀ d ∈ deps p, rank d < rank p) :
    ∀ (b p fuel : Nat), rank p ≤ b → rank p ≤ fuel →
      Times.effSpec lwt deps (fuel + 1) p = Times.effSpec lwt deps fuel p := by
  intro b
  induction b with
  | zero =>
    intro p fuel hb _
    have hnil : deps p = [] := by
      cases hd : deps p with
      | nil => rfl
      | cons d ds =>
        have := hedge p d (by rw [hd]; exact List.mem_cons_self _ _)
        omega
    rw [Times.effSpec_of_nil hnil, Times.effSpec_of_nil hnil]
  | succ m ih =>
    intro p fuel hb hf
    cases fuel with
    | zero =>
      have hnil : deps p = [] := by
        cases hd : deps p with
        | nil => rfl
        | cons d ds =>
          have := hedge p d (by rw [hd]; exact List.mem_cons_self _ _)
          omega
      rw [Times.effSpec_of_nil hnil, Times.effSpec_of_nil hnil]
    | succ k =>
      simp only [Times.effSpec]
      congr 1
      exact congrArg (fun l => l.foldr max 0)
        (List.map_congr_left (fun d hd => by
          have h1 := hedge p d hd
          exact ih d k (by omega) (by omega)))

/-- On rank-acyclic dependency functions the effective time is stable at any
unrolling depth at least the file's rank. -/
theorem Times.effSpec_stable (lwt : Nat → Nat) (deps : Nat → List Nat) (rank : Nat → Nat)
    (hedge : ∀ p, ∀ d ∈ deps p, rank d < rank p) (p fuel₁ : Nat) :
    ∀ fuel₂, rank p ≤ fuel₁ → fuel₁ ≤ fuel₂ →
      Times.effSpec lwt deps fuel₂ p = Times.effSpec lwt deps fuel₁ p := by
  intro fuel₂
  induction fuel₂ with
  | zero =>
    intro _ h2
    rw [Nat.le_zero.mp h2]
  | succ k ih =>
    intro h1 h2
    rcases Nat.lt_or_ge fuel₁ (k + 1) with hlt | hge
    · rw [Times.effSpec_succ lwt deps rank hedge (rank p) p k (Nat.le_refl _) (by omega)]
      exact ih h1 (by omega)
    · rw [show fuel₁ = k + 1 from by omega]

/-- A file's own disk mtime bounds its effective time from below. -/
theorem Times.le_effSpec (lwt : Nat → Nat) (deps : Nat → List Nat) (fuel p : Nat) :
    lwt p ≤ Times.effSpec lwt deps fuel p := by
  cases fuel with
  | zero => exact Nat.le_refl _
  | succ k => exact Nat.le_max_left _ _

/-- A `max`-fold is bounded by any common bound of the elements. -/
theorem Times.foldr_max_le :
    ∀ (l : List Nat) (c : Nat), (∀ x ∈ l, x ≤ c) → l.foldr max 0 ≤ c := by
  intro l
  induction l with
  | nil =>
    intro c _
    exact Nat.zero_le c
  | cons x t ih =>
    intro c h
    rw [List.foldr_cons]
    exact Nat.max_le.mpr ⟨h x (List.mem_cons_self _ _),
      ih c (fun y hy => h y (List.mem_cons_of_mem _ hy))⟩

/-- Every element bounds a `max`-fold from below. -/
theorem Times.le_foldr_max :
    ∀ (l : List Nat) (x : Nat), x ∈ l → x ≤ l.foldr max 0 := by
  intro l
  induction l with
  | nil =>
    intro x h
    exact absurd h (List.not_mem_nil x)
  | cons y t ih =>
    intro x h
    rw [List.foldr_cons]
    rcases List.mem_cons.mp h with rfl | h'
    · exact Nat.le_max_left _ _
    · exact Nat.le_trans (ih x h') (Nat.le_max_right _ _)

/-- The effective time is monotone in the unrolling depth. -/
theorem Times.effSpec_mono (lwt : Nat → Nat) (deps : Nat → List Nat) :
    ∀ (fuel₁ fuel₂ p : Nat), fuel₁ ≤ fuel₂ →
      Times.effSpec lwt deps fuel₁ p ≤ Times.effSpec lwt deps fuel₂ p := by
  intro fuel₁
  induction fuel₁ with
  | zero =>
    intro fuel₂ p _
    exact Times.le_effSpec lwt deps fuel₂ p
  | succ k ih =>
    intro fuel₂ p h
    cases fuel₂ with
    | zero => omega
    | succ k₂ =>
      simp only [Times.effSpec]
      apply max_le_max (Nat.le_refl _)
      apply Times.foldr_max_le
      intro x hx
      obtain ⟨d, hd, rfl⟩ := List.mem_map.mp hx
      exact Nat.le_trans (ih k₂ d (by omega))
        (Times.le_foldr_max _ _ (List.mem_map.mpr ⟨d, hd, rfl⟩))

/-- On an acyclic, closed, duplicate-free collection whose memo discipline is
intact — every non-`min` memo slot already holds the file's true effective
time, except for the in-progress set `A`, none of which is reachable from the
queried file — `get_and_fill_last_modified_time` succeeds, returns exactly
the effective time, preserves the collection's skeleton and the memo
discipline, never increases the number of unfilled memo slots, and never
touches an entry whose memo slot was already filled. -/
theorem Times.gaf_spec (lwt E : Nat → Nat) (sources : List Times.SourceFile)
    (rank : Nat → Nat)
    (hnd : (sources.map fun f => f.path).Nodup)
    (hclosed : ∀ f ∈ sources, ∀ d ∈ f.dependencies, d ∈ sources.map fun f => f.path)
    (hlwt : ∀ f ∈ sources, 1 ≤ lwt f.path)
    (hrank : ∀ f ∈ sources, ∀ d ∈ f.dependencies, rank d < rank f.path)
    (hErec : ∀ f ∈ sources,
      E f.path = max (lwt f.path) ((f.dependencies.map E).foldr max 0)) :
    ∀ (fuel : Nat) (state : List Times.SourceFile) (p : Nat) (A : List Nat),
      Times.skeleton state = Times.skeleton sources →
      p ∈ sources.map (fun f => f.path) →
      (∀ g ∈ state, g.last_modified_time ≠ 0 →
        g.last_modified_time = E g.path ∨ g.path ∈ A) →
      (∀ a ∈ A, ¬ Times.Reaches sources p a) →
      Times.zeroCount state < fuel →
      ∃ state',
        Times.gaf lwt fuel state p = some (state', E p) ∧
        Times.skeleton state' = Times.skeleton sources ∧
        (∀ g ∈ state', g.last_modified_time ≠ 0 →
          g.last_modified_time = E g.path ∨ g.path ∈ A) ∧
        Times.zeroCount state' ≤ Times.zeroCount state ∧
        (∀ (j : Nat) (g : Times.SourceFile), state[j]? = some g → g.last_modified_time ≠ 0 →
          state'[j]? = some g) := by
  intro fuel
  induction fuel with
  | zero =>
    intro state p A _ _ _ _ hfuel
    omega
  | succ fz ih =>
    have hds : ∀ (ds : List Nat) (A : List Nat) (state : List Times.SourceFile)
        (acc : Nat),
        Times.skeleton state = Times.skeleton sources →
        (∀ g ∈ state, g.last_modified_time ≠ 0 →
          g.last_modified_time = E g.path ∨ g.path ∈ A) →
        Times.zeroCount state < fz →
        (∀ d ∈ ds, d ∈ sources.map (fun f => f.path) ∧
          ∀ a ∈ A, ¬ Times.Reaches sources d a) →
        ∃ state'',
          Times.gafDeps lwt fz state ds acc
            = some (state'', (ds.map E).foldl max acc) ∧
          Times.skeleton state'' = Times.skeleton sources ∧
          (∀ g ∈ state'', g.last_modified_time ≠ 0 →
            g.last_modified_time = E g.path ∨ g.path ∈ A) ∧
          Times.zeroCount state'' ≤ Times.zeroCount state ∧
          (∀ (j : Nat) (g : Times.SourceFile), state[j]? = some g → g.last_modified_time ≠ 0 →
            state''[j]? = some g) := by
      intro ds
      induction ds with
      | nil =>
        intro A state acc h1 h2 h3 _
        refine ⟨state, ?_, h1, h2, Nat.le_refl _, fun j g hj _ => hj⟩
        simp [Times.gafDeps]
      | cons d ds ihds =>
        intro A state acc h1 h2 h3 h4
        obtain ⟨hdkey, hdreach⟩ := h4 d (List.mem_cons_self _ _)
        obtain ⟨state', hgaf, hs1, hi1, hz1, hu1⟩ :=
          ih state d A h1 hdkey h2 hdreach h3
        obtain ⟨state'', hgd, hs2, hi2, hz2, hu2⟩ :=
          ihds A state' (max acc (E d)) hs1 hi1 (by omega)
            (fun d' hd' => h4 d' (List.mem_cons_of_mem _ hd'))
        refine ⟨state'', ?_, hs2, hi2, by omega,
          fun j g hj hg => hu2 j g (hu1 j g hj hg) hg⟩
        simp only [Times.gafDeps, hgaf]
        rw [hgd]
        simp
    intro state p A hskel hkey hinv hreach hfuel
    have hkey' : p ∈ state.map (fun f => f.path) := by
      rw [Times.skeleton_paths hskel]
      exact hkey
    obtain ⟨ff, hffmem, hffp⟩ := List.mem_map.mp hkey'
    obtain ⟨i, f, hfind, hget, hfp⟩ :=
      Times.findIdx?_mem_aux (fun f => f.path = p) state 0
        ⟨ff, hffmem, by simp [hffp]⟩
    rw [Nat.zero_add] at hfind
    have hfp' : f.path = p := by simpa using hfp
    have hfmem : f ∈ state := List.mem_iff_getElem?.mpr ⟨i, hget⟩
    have hilen : i < state.length := by
      rw [List.getElem?_eq_some] at hget
      exact hget.1
    by_cases hmemo : f.last_modified_time ≠ 0
    · have hfE : f.last_modified_time = E f.path := by
        rcases hinv f hfmem hmemo with hE | hA
        · exact hE
        · exact absurd (by rw [hfp']; exact Relation.ReflTransGen.refl)
            (hreach f.path hA)
      refine ⟨state, ?_, hskel, hinv, Nat.le_refl _, fun j g hj _ => hj⟩
      simp only [Times.gaf, hfind, hget, if_pos hmemo]
      rw [hfE, hfp']
    · push_neg at hmemo
      obtain ⟨gsrc, hgsrc, hgp, hgd⟩ := Times.skeleton_mem hskel hfmem
      have hlwtp : 1 ≤ lwt p := by
        have := hlwt gsrc hgsrc
        rw [hgp, hfp'] at this
        exact this
      have hzc : Times.zeroCount
          (state.set i { f with last_modified_time := lwt p }) + 1
          = Times.zeroCount state := by
        have h := Times.countP_set_eq (fun f => f.last_modified_time = 0)
          state i f { f with last_modified_time := lwt p } hget
        have hne : ¬ lwt p = 0 := by omega
        simp [hmemo, hne] at h
        unfold Times.zeroCount
        omega
      have hskel1 : Times.skeleton
          (state.set i { f with last_modified_time := lwt p })
          = Times.skeleton sources := by
        rw [Times.skeleton_set { f with last_modified_time := lwt p } hget rfl rfl]
        exact hskel
      have hinv1 : ∀ g ∈ state.set i { f with last_modified_time := lwt p },
          g.last_modified_time ≠ 0 →
          g.last_modified_time = E g.path ∨ g.path ∈ p :: A := by
        intro g hg hgne
        rcases List.mem_or_eq_of_mem_set hg with hg' | rfl
        · rcases hinv g hg' hgne with hE | hA
          · exact Or.inl hE
          · exact Or.inr (List.mem_cons_of_mem _ hA)
        · refine Or.inr ?_
          show f.path ∈ p :: A
          rw [hfp']
          exact List.mem_cons_self _ _
      have hedgepd : ∀ d ∈ f.dependencies, Times.DepEdge sources p d := by
        intro d hd
        exact ⟨gsrc, hgsrc, by rw [hgp, hfp'], by rw [hgd]; exact hd⟩
      have hreach' : ∀ d ∈ f.dependencies, ∀ a ∈ p :: A,
          ¬ Times.Reaches sources d a := by
        intro d hd a ha hda
        rcases List.mem_cons.mp ha with rfl | haA
        · have h1 : rank a ≤ rank d := Times.rank_le_of_reaches hrank hda
          have h2 : rank d < rank a := by
            obtain ⟨gg, hgg, hggp, hggd⟩ := hedgepd d hd
            have := hrank gg hgg d hggd
            rw [hggp] at this
            exact this
          omega
        · exact hreach a haA (Relation.ReflTransGen.head (hedgepd d hd) hda)
      have hdepskey : ∀ d ∈ f.dependencies,
          d ∈ sources.map (fun f => f.path) := by
        intro d hd
        exact hclosed gsrc hgsrc d (by rw [hgd]; exact hd)
      obtain ⟨state2, hgd2, hskel2, hinv2, hzc2, hu2⟩ :=
        hds f.dependencies (p :: A)
          (state.set i { f with last_modified_time := lwt p }) (lwt p)
          hskel1 hinv1 (by omega)
          (fun d hd => ⟨hdepskey d hd, hreach' d hd⟩)
      have hval : (f.dependencies.map E).foldl max (lwt p) = E p := by
        rw [Times.foldl_max_eq]
        have := hErec gsrc hgsrc
        rw [hgp, hgd, hfp'] at this
        exact this.symm
      have hEp1 : 1 ≤ E p := by
        rw [← hval, Times.foldl_max_eq]
        omega
      have hget1 : (state.set i { f with last_modified_time := lwt p })[i]?
          = some { f with last_modified_time := lwt p } :=
        List.getElem?_set_eq hilen
      have hget2 : state2[i]? = some { f with last_modified_time := lwt p } :=
        hu2 i _ hget1 (by show lwt p ≠ 0; omega)
      have hlen2 : state2.length = state.length := by
        rw [Times.skeleton_length hskel2, Times.skeleton_length hskel]
      have hnd2 : (state2.map fun f => f.path).Nodup := by
        rw [Times.skeleton_paths hskel2]
        exact hnd
      refine ⟨state2.set i { f with last_modified_time := E p },
        ?_, ?_, ?_, ?_, ?_⟩
      · simp only [Times.gaf, hfind, hget, if_neg (by simp [hmemo] :
          ¬ f.last_modified_time ≠ 0)]
        rw [hgd2, hval]
      · rw [Times.skeleton_set { f with last_modified_time := E p } hget2 rfl rfl]
        exact hskel2
      · intro g hg hgne
        rw [List.mem_iff_getElem?] at hg
        obtain ⟨j, hj⟩ := hg
        by_cases hij : j = i
        · subst hij
          rw [List.getElem?_set_eq (by omega)] at hj
          have hgv := Option.some.inj hj
          left
          rw [← hgv]
          show E p = E ({ f with last_modified_time := E p } :
            Times.SourceFile).path
          rw [show ({ f with last_modified_time := E p } :
            Times.SourceFile).path = f.path from rfl, hfp']
        · rw [List.getElem?_set_ne (fun h => hij h.symm)] at hj
          rcases hinv2 g (List.mem_iff_getElem?.mpr ⟨j, hj⟩) hgne with hE | hpa
          · exact Or.inl hE
          · rcases List.mem_cons.mp hpa with hgp' | hA
            · exfalso
              apply hij
              exact Times.nodup_paths_index hnd2 hj hget2
                (by rw [hgp']; exact hfp'.symm)
            · exact Or.inr hA
      · have h := Times.countP_set_eq (fun f => f.last_modified_time = 0)
          state2 i { f with last_modified_time := lwt p }
          { f with last_modified_time := E p } hget2
        have hne1 : ¬ lwt p = 0 := by omega
        have hne2 : ¬ E p = 0 := by omega
        simp [hne1, hne2] at h
        unfold Times.zeroCount at hzc2 hzc ⊢
        omega
      · intro j g hj hgne
        have hji : j ≠ i := by
          intro hc
          subst hc
          rw [hj] at hget
          have := Option.some.inj hget
          rw [this] at hgne
          exact hgne hmemo
        rw [List.getElem?_set_ne (fun h => hji h.symm)]
        apply hu2
        · rw [List.getElem?_set_ne (fun h => hji h.symm)]
          exact hj
        · exact hgne

/-- The dependency fold of `get_and_fill_last_modified_time` computes the
`max` of the accumulator with the dependencies' effective times, under the
same conditions as `Times.gaf_spec`. -/
theorem Times.gafDeps_spec (lwt E : Nat → Nat) (sources : List Times.SourceFile)
    (rank : Nat → Nat)
    (hnd : (sources.map fun f => f.path).Nodup)
    (hclosed : ∀ f ∈ sources, ∀ d ∈ f.dependencies, d ∈ sources.map fun f => f.path)
    (hlwt : ∀ f ∈ sources, 1 ≤ lwt f.path)
    (hrank : ∀ f ∈ sources, ∀ d ∈ f.dependencies, rank d < rank f.path)
    (hErec : ∀ f ∈ sources,
      E f.path = max (lwt f.path) ((f.dependencies.map E).foldr max 0))
    (fuel : Nat) :
    ∀ (ds : List Nat) (A : List Nat) (state : List Times.SourceFile) (acc : Nat),
      Times.skeleton state = Times.skeleton sources →
      (∀ g ∈ state, g.last_modified_time ≠ 0 →
        g.last_modified_time = E g.path ∨ g.path ∈ A) →
      Times.zeroCount state < fuel →
      (∀ d ∈ ds, d ∈ sources.map (fun f => f.path) ∧
        ∀ a ∈ A, ¬ Times.Reaches sources d a) →
      ∃ state'',
        Times.gafDeps lwt fuel state ds acc
          = some (state'', (ds.map E).foldl max acc) ∧
        Times.skeleton state'' = Times.skeleton sources ∧
        (∀ g ∈ state'', g.last_modified_time ≠ 0 →
          g.last_modified_time = E g.path ∨ g.path ∈ A) ∧
        Times.zeroCount state'' ≤ Times.zeroCount state ∧
        (∀ (j : Nat) (g : Times.SourceFile), state[j]? = some g →
          g.last_modified_time ≠ 0 → state''[j]? = some g) := by
  intro ds
  induction ds with
  | nil =>
    intro A state acc h1 h2 h3 _
    refine ⟨state, ?_, h1, h2, Nat.le_refl _, fun j g hj _ => hj⟩
    simp [Times.gafDeps]
  | cons d ds ihds =>
    intro A state acc h1 h2 h3 h4
    obtain ⟨hdkey, hdreach⟩ := h4 d (List.mem_cons_self _ _)
    obtain ⟨state', hgaf, hs1, hi1, hz1, hu1⟩ :=
      Times.gaf_spec lwt E sources rank hnd hclosed hlwt hrank hErec
        fuel state d A h1 hdkey h2 hdreach h3
    obtain ⟨state'', hgd, hs2, hi2, hz2, hu2⟩ :=
      ihds A state' (max acc (E d)) hs1 hi1 (by omega)
        (fun d' hd' => h4 d' (List.mem_cons_of_mem _ hd'))
    refine ⟨state'', ?_, hs2, hi2, by omega,
      fun j g hj hg => hu2 j g (hu1 j g hj hg) hg⟩
    cases fuel with
    | zero => omega
    | succ fz =>
      simp only [Times.gafDeps, hgaf]
      rw [hgd]
      simp

/-- The per-entry loop of `fill_last_modified_times`: once every entry before
the cursor stores its effective time and the memo discipline holds, the rest
of the loop succeeds and leaves every entry's stored time equal to its
effective time. -/
theorem Times.fillGo_spec (lwt E : Nat → Nat) (sources : List Times.SourceFile)
    (rank : Nat → Nat)
    (hnd : (sources.map fun f => f.path).Nodup)
    (hclosed : ∀ f ∈ sources, ∀ d ∈ f.dependencies, d ∈ sources.map fun f => f.path)
    (hlwt : ∀ f ∈ sources, 1 ≤ lwt f.path)
    (hrank : ∀ f ∈ sources, ∀ d ∈ f.dependencies, rank d < rank f.path)
    (hErec : ∀ f ∈ sources,
      E f.path = max (lwt f.path) ((f.dependencies.map E).foldr max 0)) :
    ∀ (k j : Nat) (state : List Times.SourceFile),
      Times.skeleton state = Times.skeleton sources →
      (∀ g ∈ state, g.last_modified_time ≠ 0 → g.last_modified_time = E g.path) →
      (∀ (i : Nat) (g : Times.SourceFile), i < j → state[i]? = some g →
        g.last_modified_time = E g.path) →
      sources.length ≤ k + j →
      ∃ final, Times.fillGo lwt k j state = some final ∧
        Times.skeleton final = Times.skeleton sources ∧
        ∀ g ∈ final, g.last_modified_time = E g.path := by
  have hE1 : ∀ g ∈ sources, 1 ≤ E g.path := fun g hg =>
    le_trans (hlwt g hg) (by rw [hErec g hg]; exact le_max_left _ _)
  intro k
  induction k with
  | zero =>
    intro j state hskel hinv hproc hkj
    refine ⟨state, by simp [Times.fillGo], hskel, ?_⟩
    intro g hg
    rw [List.mem_iff_getElem?] at hg
    obtain ⟨i, hi⟩ := hg
    apply hproc i g ?_ hi
    have h1 : i < state.length := by
      rw [List.getElem?_eq_some] at hi
      exact hi.1
    have hlen : state.length = sources.length := Times.skeleton_length hskel
    omega
  | succ kk ihk =>
    intro j state hskel hinv hproc hkj
    cases hgetj : state[j]? with
    | none =>
      have hj : state.length ≤ j := by
        by_contra hc
        push_neg at hc
        rw [List.getElem?_eq_getElem hc] at hgetj
        cases hgetj
      refine ⟨state, ?_, hskel, ?_⟩
      · simp [Times.fillGo, hgetj]
      · intro g hg
        rw [List.mem_iff_getElem?] at hg
        obtain ⟨i, hi⟩ := hg
        apply hproc i g ?_ hi
        have h1 : i < state.length := by
          rw [List.getElem?_eq_some] at hi
          exact hi.1
        omega
    | some f =>
      have hfmem : f ∈ state := List.mem_iff_getElem?.mpr ⟨j, hgetj⟩
      obtain ⟨gsrc, hgsrc, hgp, hgd⟩ := Times.skeleton_mem hskel hfmem
      have hjlen : j < state.length := by
        rw [List.getElem?_eq_some] at hgetj
        exact hgetj.1
      obtain ⟨state2, hgd2, hskel2, hinv2, hzc2, hu2⟩ :=
        Times.gafDeps_spec lwt E sources rank hnd hclosed hlwt hrank hErec
          (state.length + 1) f.dependencies [] state (lwt f.path)
          hskel (fun g hg hgne => Or.inl (hinv g hg hgne))
          (by
            have h0 : Times.zeroCount state ≤ state.length :=
              List.countP_le_length _
            omega)
          (fun d hd => ⟨hclosed gsrc hgsrc d (by rw [hgd]; exact hd),
            fun a ha _ => absurd ha (List.not_mem_nil a)⟩)
      have hval : (f.dependencies.map E).foldl max (lwt f.path) = E f.path := by
        rw [Times.foldl_max_eq]
        have := hErec gsrc hgsrc
        rw [hgp, hgd] at this
        exact this.symm
      have hlen2 : state2.length = state.length := by
        rw [Times.skeleton_length hskel2, Times.skeleton_length hskel]
      obtain ⟨f2, hf2get, hf2p, hf2d⟩ : ∃ f2, state2[j]? = some f2 ∧
          f2.path = f.path ∧ f2.dependencies = f.dependencies := by
        have h1 : (Times.skeleton state2)[j]? = (Times.skeleton state)[j]? := by
          rw [hskel2, hskel]
        unfold Times.skeleton at h1
        rw [List.getElem?_map, List.getElem?_map, hgetj] at h1
        cases hs2 : state2[j]? with
        | none =>
          rw [hs2] at h1
          cases h1
        | some f2 =>
          rw [hs2] at h1
          exact ⟨f2, rfl, congrArg Prod.fst (Option.some.inj h1),
            congrArg Prod.snd (Option.some.inj h1)⟩
      have hskel3 : Times.skeleton
          (state2.set j { f with last_modified_time := E f.path })
          = Times.skeleton sources := by
        rw [Times.skeleton_set { f with last_modified_time := E f.path }
          hf2get hf2p.symm hf2d.symm]
        exact hskel2
      have hinv3 : ∀ g ∈ state2.set j { f with last_modified_time := E f.path },
          g.last_modified_time ≠ 0 → g.last_modified_time = E g.path := by
        intro g hg hgne
        rcases List.mem_or_eq_of_mem_set hg with hg' | rfl
        · exact (hinv2 g hg' hgne).resolve_right
            (fun hc => absurd hc (List.not_mem_nil _))
        · rfl
      have hproc3 : ∀ (i : Nat) (g : Times.SourceFile), i < j + 1 →
          (state2.set j { f with last_modified_time := E f.path })[i]? = some g →
          g.last_modified_time = E g.path := by
        intro i g hij hi
        by_cases hij' : i = j
        · subst hij'
          rw [List.getElem?_set_eq (by omega)] at hi
          rw [← Option.some.inj hi]
        · rw [List.getElem?_set_ne (fun h => hij' h.symm)] at hi
          have hij2 : i < j := by omega
          cases hsi : state[i]? with
          | none =>
            rw [List.getElem?_eq_getElem (by omega)] at hsi
            cases hsi
          | some g0 =>
            have hg0 := hproc i g0 hij2 hsi
            have hg0ne : g0.last_modified_time ≠ 0 := by
              obtain ⟨gs, hgs, hgsp, _⟩ := Times.skeleton_mem hskel
                (List.mem_iff_getElem?.mpr ⟨i, hsi⟩)
              have h1 := hE1 gs hgs
              rw [hgsp] at h1
              omega
            have h2 := hu2 i g0 hsi hg0ne
            rw [h2] at hi
            rw [← Option.some.inj hi]
            exact hg0
      obtain ⟨final, hrun, hskelF, hallF⟩ :=
        ihk (j + 1) (state2.set j { f with last_modified_time := E f.path })
          hskel3 hinv3 hproc3 (by omega)
      refine ⟨final, ?_, hskelF, hallF⟩
      simp only [Times.fillGo, hgetj, hgd2, hval]
      exact hrun

/-- Any common bound of the disk mtimes bounds all effective times. -/
theorem Times.effSpec_le (lwt : Nat → Nat) (deps : Nat → List Nat) (c : Nat)
    (hc : ∀ q, lwt q ≤ c) : ∀ (fuel p : Nat), Times.effSpec lwt deps fuel p ≤ c := by
  intro fuel
  induction fuel with
  | zero =>
    intro p
    exact hc p
  | succ k ih =>
    intro p
    simp only [Times.effSpec]
    refine Nat.max_le.mpr ⟨hc p, ?_⟩
    apply Times.foldr_max_le
    intro x hx
    obtain ⟨d, hd, rfl⟩ := List.mem_map.mp hx
    exact ih d

/-- C1, amended to acyclic graphs.  On a duplicate-free, dependency-closed
collection with fresh (`min`) memo slots and positive disk mtimes, if the
dependency relation admits a topological rank bounded by `B`, then
`fill_last_modified_times` succeeds, never changes any path or dependency
list, and stores in every entry exactly the specification's effective time —
the function `effSpec … (B + 1)`, which the last conjunct shows satisfies the
spec's recurrence `effective_time(f) = max(disk_mtime(f), max over d in
deps(f) of effective_time(d))` at every path.  (The cyclic case claimed by the
spec is refuted by `Times.claim_C1_counterexample`.) -/
theorem Times.claim_C1_amended (lwt : Nat → Nat) (sources : List Times.SourceFile)
    (rank : Nat → Nat) (B : Nat)
    (hinit : ∀ f ∈ sources, f.last_modified_time = 0)
    (hnd : (sources.map fun f => f.path).Nodup)
    (hclosed : ∀ f ∈ sources, ∀ d ∈ f.dependencies, d ∈ sources.map fun f => f.path)
    (hlwt : ∀ f ∈ sources, 1 ≤ lwt f.path)
    (hrank : ∀ f ∈ sources, ∀ d ∈ f.dependencies, rank d < rank f.path)
    (hrb : ∀ f ∈ sources, rank f.path ≤ B) :
    ∃ final, Times.fillLastModifiedTimes lwt sources = some final ∧
      Times.skeleton final = Times.skeleton sources ∧
      (∀ g ∈ final, g.last_modified_time
        = Times.effSpec lwt (Times.depsOfSources sources) (B + 1) g.path) ∧
      (∀ p, Times.effSpec lwt (Times.depsOfSources sources) (B + 1) p
        = max (lwt p) (((Times.depsOfSources sources p).map
            (Times.effSpec lwt (Times.depsOfSources sources) (B + 1))).foldr max 0)) := by
  have hedge : ∀ p, ∀ d ∈ Times.depsOfSources sources p, rank d < rank p := by
    intro p d hd
    unfold Times.depsOfSources at hd
    cases hfind : sources.find? (fun f => f.path = p) with
    | none =>
      rw [hfind] at hd
      exact absurd hd (List.not_mem_nil d)
    | some f =>
      rw [hfind] at hd
      have hfmem := List.mem_of_find?_eq_some hfind
      have hfp : f.path = p := by simpa using List.find?_some hfind
      have h1 := hrank f hfmem d hd
      rw [hfp] at h1
      exact h1
  have hdeq : ∀ f ∈ sources, Times.depsOfSources sources f.path = f.dependencies := by
    intro f hf
    unfold Times.depsOfSources
    rw [Times.find?_path_of_nodup sources f hnd hf]
  have hErec : ∀ f ∈ sources,
      Times.effSpec lwt (Times.depsOfSources sources) (B + 1) f.path
        = max (lwt f.path) ((f.dependencies.map
            (Times.effSpec lwt (Times.depsOfSources sources) (B + 1))).foldr max 0) := by
    intro f hf
    have hstep : Times.effSpec lwt (Times.depsOfSources sources) (B + 1) f.path
        = max (lwt f.path) (((Times.depsOfSources sources f.path).map
            (Times.effSpec lwt (Times.depsOfSources sources) B)).foldr max 0) := rfl
    rw [hstep, hdeq f hf]
    congr 1
    have hmap : f.dependencies.map (Times.effSpec lwt (Times.depsOfSources sources) B)
        = f.dependencies.map
            (Times.effSpec lwt (Times.depsOfSources sources) (B + 1)) := by
      apply List.map_congr_left
      intro d hd
      have hdr : rank d < rank f.path := by
        apply hedge f.path
        rw [hdeq f hf]
        exact hd
      have hdb : rank d ≤ B := by
        have := hrb f hf
        omega
      exact (Times.effSpec_succ lwt _ rank hedge (rank d) d B (Nat.le_refl _) hdb).symm
    rw [hmap]
  have hrec : ∀ p, Times.effSpec lwt (Times.depsOfSources sources) (B + 1) p
      = max (lwt p) (((Times.depsOfSources sources p).map
          (Times.effSpec lwt (Times.depsOfSources sources) (B + 1))).foldr max 0) := by
    intro p
    cases hfind : sources.find? (fun f => f.path = p) with
    | none =>
      have hnil : Times.depsOfSources sources p = [] := by
        unfold Times.depsOfSources
        rw [hfind]
      rw [Times.effSpec_of_nil hnil, hnil]
      simp
    | some f =>
      have hfmem := List.mem_of_find?_eq_some hfind
      have hfp : f.path = p := by simpa using List.find?_some hfind
      have h1 := hErec f hfmem
      rw [hfp] at h1
      have h2 : Times.depsOfSources sources p = f.dependencies := by
        rw [← hfp]
        exact hdeq f hfmem
      rw [h2]
      exact h1
  obtain ⟨final, hrun, hskelF, hallF⟩ :=
    Times.fillGo_spec lwt (Times.effSpec lwt (Times.depsOfSources sources) (B + 1))
      sources rank hnd hclosed hlwt hrank hErec sources.length 0 sources rfl
      (fun g hg hgne => absurd (hinit g hg) hgne)
      (fun i g hi _ => absurd hi (by omega))
      (by omega)
  exact ⟨final, hrun, hskelF, hallF, hrec⟩

/-- C1 witness: an acyclic two-file graph (file 1 includes file 2) with disk
mtimes 3 and 5. -/
theorem Times.claim_C1_witness :
    ∃ final, Times.fillLastModifiedTimes (fun p => if p = 2 then 5 else 3)
        [⟨1, [2], 0⟩, ⟨2, [], 0⟩] = some final ∧
      Times.skeleton final = Times.skeleton [⟨1, [2], 0⟩, ⟨2, [], 0⟩] ∧
      (∀ g ∈ final, g.last_modified_time
        = Times.effSpec (fun p => if p = 2 then 5 else 3)
            (Times.depsOfSources [⟨1, [2], 0⟩, ⟨2, [], 0⟩]) (1 + 1) g.path) ∧
      (∀ p, Times.effSpec (fun p => if p = 2 then 5 else 3)
            (Times.depsOfSources [⟨1, [2], 0⟩, ⟨2, [], 0⟩]) (1 + 1) p
        = max ((fun p => if p = 2 then 5 else 3) p)
            (((Times.depsOfSources [⟨1, [2], 0⟩, ⟨2, [], 0⟩] p).map
              (Times.effSpec (fun p => if p = 2 then 5 else 3)
                (Times.depsOfSources [⟨1, [2], 0⟩, ⟨2, [], 0⟩]) (1 + 1))).foldr max 0)) :=
  Times.claim_C1_amended (fun p => if p = 2 then 5 else 3) [⟨1, [2], 0⟩, ⟨2, [], 0⟩]
    (fun p => if p = 1 then 1 else 0) 1 (by decide) (by decide) (by decide)
    (by decide) (by decide) (by decide)

/-- C1 counterexample: on the cyclic five-file collection `Times.exSources`
(`3 ↔ 4`), `fill_last_modified_times` terminates but stores `1` for file 2,
while the spec's effective time of file 2 is `10` (stably, at every unrolling
depth from 3 on) — so the claim's "including graphs whose include relation
contains cycles" fails: the memoized computation does not realize the
recursive definition on cyclic graphs. -/
theorem Times.claim_C1_counterexample :
    Times.fillLastModifiedTimes Times.exLwt Times.exSources
        = some [⟨1, [3], 10⟩, ⟨2, [4], 1⟩, ⟨3, [4, 5], 10⟩, ⟨4, [3], 10⟩, ⟨5, [], 10⟩] ∧
    (∀ fuel, 3 ≤ fuel →
      Times.effSpec Times.exLwt (Times.depsOfSources Times.exSources) fuel 2 = 10) ∧
    ¬ (∀ final, Times.fillLastModifiedTimes Times.exLwt Times.exSources = some final →
        ∀ g ∈ final, g.last_modified_time
          = Times.effSpec Times.exLwt (Times.depsOfSources Times.exSources) 5 g.path) := by
  have heval : Times.fillLastModifiedTimes Times.exLwt Times.exSources
      = some [⟨1, [3], 10⟩, ⟨2, [4], 1⟩, ⟨3, [4, 5], 10⟩, ⟨4, [3], 10⟩, ⟨5, [], 10⟩] := by
    simp [Times.fillLastModifiedTimes, Times.fillGo, Times.gaf, Times.gafDeps,
      Times.exSources, Times.exLwt]
  have hstable : ∀ fuel, 3 ≤ fuel →
      Times.effSpec Times.exLwt (Times.depsOfSources Times.exSources) fuel 2 = 10 := by
    intro fuel hf
    have h3 : Times.effSpec Times.exLwt (Times.depsOfSources Times.exSources) 3 2
        = 10 := by decide
    have hub := Times.effSpec_le Times.exLwt (Times.depsOfSources Times.exSources) 10
      (by
        intro q
        dsimp only [Times.exLwt]
        split <;> omega) fuel 2
    have hlb := Times.effSpec_mono Times.exLwt (Times.depsOfSources Times.exSources)
      3 fuel 2 hf
    omega
  refine ⟨heval, hstable, ?_⟩
  intro hall
  have h2 := hall _ heval ⟨2, [4], 1⟩ (by simp)
  rw [hstable 5 (by omega)] at h2
  simp at h2

end Cppb
